import Mathlib

/-!
# PT3 I2C bus: instruction compiler and execution engine

A shallow embedding of `pt3_i2c_bus.c` / `pt3_i2c_bus.h`.

* Machine integers (`__u32`, `__u8`, `int`) are naturals or integers, reduced
  modulo `2 ^ 32` (resp. `2 ^ 8`) wherever the C code stores them.
* Memory reached through a pointer is a function from byte offsets (relative
  to the pointer) to byte values.  `priv->sbuf` points at a block of
  `MAX_INSTRUCTIONS / 2` bytes; offsets at or beyond that size are the memory
  that happens to follow the block.
* The register window `bus->base` is described by the stream of words the
  device presents on successive reads of the status register and by the bytes
  of the instruction store.  Register accesses, sleeps, lock operations and
  the upload are recorded, in program order, in an event trace.
* The polling loop of `wait` is unbounded in C; here it takes a bound on the
  number of iterations and yields `none` when the bound is used up.
* `create_pt3_i2c_bus` and `free_pt3_i2c_bus` work on a heap of blocks whose
  struct fields are maps from addresses to values; each call of `kzalloc`
  succeeds or fails as an oracle says, and a read through `NULL` is a fault.
-/

namespace PT3

/-! ## Constants -/

/-- The constant `MAX_INSTRUCTIONS`. -/
def MAX_INSTRUCTIONS : Nat := 4096

/-- Reduction of a value to the range of `__u32`. -/
def u32 (x : Nat) : Nat := x % 2 ^ 32

/-- Reduction of a value to the range of `__u8`. -/
def u8 (x : Nat) : Nat := x % 2 ^ 8

def I_END : Nat := 0
def I_ADDRESS : Nat := 1
def I_CLOCK_L : Nat := 2
def I_CLOCK_H : Nat := 3
def I_DATA_L : Nat := 4
def I_DATA_H : Nat := 5
def I_RESET : Nat := 6
def I_SLEEP : Nat := 7
def I_DATA_L_NOP : Nat := 0x08
def I_DATA_H_NOP : Nat := 0x0c
def I_DATA_H_READ : Nat := 0x0d
def I_DATA_H_ACK0 : Nat := 0x0e
def I_DATA_H_ACK1 : Nat := 0x0f
def _I_DATA_L_READ : Nat := I_DATA_H_READ ^^^ 0x04

/-- Modelled from the spec: the macro `BIT_SHIFT_MASK` of `pt3_com.h`, which is
not among the sources.  The spec reads `BIT_SHIFT_MASK(val, 0, 1)` as the busy
bit (bit 0), `BIT_SHIFT_MASK(data, 1, 2)` as the 2-bit field in bits 1..2 and
`BIT_SHIFT_MASK(val, 3, 1)` as bit 3: the value shifted right by `shift` and
masked to `width` bits. -/
def BIT_SHIFT_MASK (value shift width : Nat) : Nat :=
  (value >>> shift) &&& (2 ^ width - 1)

/-! ## Data model -/

/-- What the program does to the outside world, in program order. -/
inductive Event where
  /-- The call `readl(bus->base + REGS_I2C_R)` returning `val`. -/
  | readl (val : Nat)
  /-- The call `writel(val, bus->base + REGS_I2C_W)`. -/
  | writel (val : Nat)
  /-- The call `memcpy` of `n` bytes to `bus->base + REGS_I2C_INST + dst`. -/
  | memcpy_inst (dst n : Nat)
  /-- The call `schedule_timeout_interruptible(msecs_to_jiffies(1))`. -/
  | sleep
  /-- The call `mutex_lock(&bus->lock)`. -/
  | mutex_lock
  /-- The call `mutex_unlock(&bus->lock)`. -/
  | mutex_unlock
  deriving DecidableEq

/-- The register window behind `bus->base`. -/
structure Regs where
  /-- Word presented by `REGS_I2C_R` at its `n`-th read (counted from 0). -/
  status : Nat → Nat
  /-- Number of reads of `REGS_I2C_R` performed so far. -/
  reads : Nat
  /-- Bytes of the instruction store at `REGS_I2C_INST`. -/
  inst : Nat → Nat

/-- The struct `PT3_I2C_BUS_PRIV_DATA`: `sbuf` is the memory at `priv->sbuf`. -/
structure PT3_I2C_BUS_PRIV_DATA where
  sbuf : Nat → Nat

/-- The struct `PT3_I2C_BUS`; `lock` is `true` while the mutex is held. -/
structure PT3_I2C_BUS where
  base : Regs
  lock : Bool
  inst_addr : Nat
  inst_count : Nat
  priv : PT3_I2C_BUS_PRIV_DATA

/-- Program state seen by the functions of the file: the file-scope variable
`tmp_inst`, the bus they are called on, and the trace of events so far. -/
structure Machine where
  tmp_inst : Nat
  bus : PT3_I2C_BUS
  trace : List Event

/-- The call `memcpy(dst + d, src, n)`. -/
def memcpy (dst : Nat → Nat) (d : Nat) (src : Nat → Nat) (n : Nat) : Nat → Nat :=
  fun a => if d ≤ a ∧ a < d + n then src (a - d) else dst a

/-- The bytes of a `__u32` object in memory, least significant byte first. -/
def bytes_u32 (v : Nat) : Nat → Nat :=
  fun i => (v >>> (8 * i)) % 256

/-- The bus `create_pt3_i2c_bus(regs)` returns when its allocations succeed:
`kzalloc` zero-fills the struct and the `MAX_INSTRUCTIONS / 2` bytes of the
buffer, `mutex_init` leaves the lock free.  `beyond` is the memory following
the buffer. -/
def fresh_bus (regs : Regs) (beyond : Nat → Nat) : PT3_I2C_BUS :=
  { base := regs
    lock := false
    inst_addr := 0
    inst_count := 0
    priv := { sbuf := fun i => if i < MAX_INSTRUCTIONS / 2 then 0 else beyond i } }

/-! ## Instruction compiler -/

/-- The function `add_instruction`. -/
def add_instruction (m : Machine) (instruction : Nat) : Machine :=
  let tmp :=
    if m.bus.inst_count % 2 = 0 then u32 instruction
    else u32 (m.tmp_inst ||| u32 (u32 instruction <<< 4))
  let sbuf :=
    if m.bus.inst_count % 2 ≠ 0 then
      memcpy m.bus.priv.sbuf (m.bus.inst_count / 2) (bytes_u32 tmp) 4
    else m.bus.priv.sbuf
  { m with
    tmp_inst := tmp
    bus := { m.bus with
      priv := { sbuf := sbuf }
      inst_count := u32 (m.bus.inst_count + 1) } }

/-- The function `pt3_i2c_bus_start`. -/
def pt3_i2c_bus_start (m : Machine) : Machine :=
  let m := add_instruction m I_DATA_H
  let m := add_instruction m I_CLOCK_H
  let m := add_instruction m I_DATA_L
  add_instruction m I_CLOCK_L

/-- The function `pt3_i2c_bus_stop`. -/
def pt3_i2c_bus_stop (m : Machine) : Machine :=
  let m := add_instruction m I_DATA_L
  let m := add_instruction m I_CLOCK_H
  add_instruction m I_DATA_H

/-- The function `pt3_i2c_bus_write`; `data` lists the `size` bytes at the
pointer of the same name. -/
def pt3_i2c_bus_write (m : Machine) (data : List Nat) : Machine :=
  data.foldl
    (fun m d =>
      let byte := u8 d
      let m := (List.range 8).foldl
        (fun m j =>
          add_instruction m
            (if BIT_SHIFT_MASK byte (7 - j) 1 ≠ 0 then I_DATA_H_NOP else I_DATA_L_NOP))
        m
      add_instruction m I_DATA_H_ACK0)
    m

/-! ## Execution engine -/

/-- The call `readl(bus->base + REGS_I2C_R)`. -/
def readl_status (m : Machine) : Machine × Nat :=
  let val := u32 (m.bus.base.status m.bus.base.reads)
  ({ m with
     bus := { m.bus with base := { m.bus.base with reads := m.bus.base.reads + 1 } }
     trace := m.trace ++ [Event.readl val] }, val)

/-- The call `writel(val, bus->base + REGS_I2C_W)`. -/
def writel_command (m : Machine) (val : Nat) : Machine :=
  { m with trace := m.trace ++ [Event.writel (u32 val)] }

/-- The call `schedule_timeout_interruptible(msecs_to_jiffies(1))`. -/
def schedule_timeout_interruptible (m : Machine) : Machine :=
  { m with trace := m.trace ++ [Event.sleep] }

/-- The function `wait`, with at most `fuel` iterations of its loop.  Both of
its callers pass a non-null `data`, so the word stored through it is returned. -/
def wait : Nat → Machine → Option (Machine × Nat)
  | 0, _ => none
  | fuel + 1, m =>
    let (m, val) := readl_status m
    if BIT_SHIFT_MASK val 0 1 = 0 then some (m, val)
    else wait fuel (schedule_timeout_interruptible m)

/-- The function `run_code`.  `ack` is `none` for a null pointer and holds the
pointed-to word otherwise; the result carries the return value and that word
after the call. -/
def run_code (fuel : Nat) (m : Machine) (start_addr : Nat) (ack : Option Nat) :
    Option (Machine × Int × Option Nat) :=
  match wait fuel m with
  | none => none
  | some (m, _) =>
    let m := writel_command m (1 <<< 16 ||| start_addr)
    match wait fuel m with
    | none => none
    | some (m, data) =>
      let data := BIT_SHIFT_MASK data 1 2
      let ack := ack.map (fun _ => data)
      some (m, if data ≠ 0 then -1 else 0, ack)

/-- The function `pt3_i2c_bus_copy`. -/
def pt3_i2c_bus_copy (m : Machine) : Machine :=
  let src := m.bus.priv.sbuf
  let dst := m.bus.inst_addr / 2
  { m with
    bus := { m.bus with
      base := { m.bus.base with
        inst := memcpy m.bus.base.inst dst src (m.bus.inst_count / 2) } }
    trace := m.trace ++ [Event.memcpy_inst dst (m.bus.inst_count / 2)] }

/-- The call `mutex_lock(&bus->lock)`: it does not return while the lock is
held by someone else. -/
def mutex_lock (m : Machine) : Option Machine :=
  if m.bus.lock then none
  else some { m with
    bus := { m.bus with lock := true }
    trace := m.trace ++ [Event.mutex_lock] }

/-- The call `mutex_unlock(&bus->lock)`. -/
def mutex_unlock (m : Machine) : Machine :=
  { m with
    bus := { m.bus with lock := false }
    trace := m.trace ++ [Event.mutex_unlock] }

/-- The function `pt3_i2c_bus_run`. -/
def pt3_i2c_bus_run (fuel : Nat) (m : Machine) (ack : Option Nat) (copy : Int) :
    Option (Machine × Int × Option Nat) :=
  match mutex_lock m with
  | none => none
  | some m =>
    let m := if copy ≠ 0 then pt3_i2c_bus_copy m else m
    match run_code fuel m m.bus.inst_addr ack with
    | none => none
    | some (m, ret, ack) => some (mutex_unlock m, ret, ack)

/-- The function `pt3_i2c_bus_is_clean`. -/
def pt3_i2c_bus_is_clean (m : Machine) : Machine × Int :=
  let (m, val) := readl_status m
  (m, (BIT_SHIFT_MASK val 3 1 : Nat))

/-- The function `pt3_i2c_bus_reset`. -/
def pt3_i2c_bus_reset (m : Machine) : Machine :=
  writel_command m (1 <<< 17)

/-! ## Vocabulary of the properties -/

/-- Appending the opcodes of a list one by one, first to last. -/
def append_all (m : Machine) (ops : List Nat) : Machine :=
  ops.foldl add_instruction m

/-- Opcode number `i` as read back from packed bytes: the low nibble of byte
`i / 2` when `i` is even, its high nibble when `i` is odd. -/
def decode_opcode (buf : Nat → Nat) (i : Nat) : Nat :=
  if i % 2 = 0 then buf (i / 2) &&& 0xf else (buf (i / 2) >>> 4) &&& 0xf

/-- The first `n` opcodes read back from packed bytes. -/
def decode (buf : Nat → Nat) (n : Nat) : List Nat :=
  (List.range n).map (decode_opcode buf)

/-- A machine whose bus has just been created. -/
def fresh (tmp : Nat) (regs : Regs) (beyond : Nat → Nat) : Machine :=
  { tmp_inst := tmp, bus := fresh_bus regs beyond, trace := [] }

/-- Opcode that `pt3_i2c_bus_write` is to emit for bit `i` of the byte `d`:
`I_DATA_H_NOP` when the bit is 1, `I_DATA_L_NOP` when it is 0. -/
def bit_opcode (d i : Nat) : Nat :=
  if d.testBit i then I_DATA_H_NOP else I_DATA_L_NOP

/-- Opcodes that `pt3_i2c_bus_write` is to append for a list of bytes: per
byte, its bits 7 down to 0, then `I_DATA_H_ACK0`. -/
def write_opcodes (data : List Nat) : List Nat :=
  data.flatMap fun d => [7, 6, 5, 4, 3, 2, 1, 0].map (bit_opcode d) ++ [I_DATA_H_ACK0]

/-- Events of a poll that reads the status words number `start`, ...,
`start + k` of the stream and sleeps after each of the first `k`. -/
def poll_trace (status : Nat → Nat) (start : Nat) : Nat → List Event
  | 0 => [Event.readl (u32 (status start))]
  | k + 1 => Event.readl (u32 (status start)) :: Event.sleep :: poll_trace status (start + 1) k

/-- The machine after a poll of `k + 1` reads. -/
def after_poll (m : Machine) (k : Nat) : Machine :=
  { m with
    bus := { m.bus with base := { m.bus.base with reads := m.bus.base.reads + (k + 1) } }
    trace := m.trace ++ poll_trace m.bus.base.status m.bus.base.reads k }

/-- Whether an event is a write to the command register. -/
def is_command_write : Event → Bool
  | Event.writel _ => true
  | _ => false

/-- The machine on which `pt3_i2c_bus_run` starts `run_code`: the lock is
taken and, when `copy` is non-zero, the buffer is uploaded. -/
def run_entry (m : Machine) (copy : Int) : Machine :=
  let m := { m with bus := { m.bus with lock := true }, trace := m.trace ++ [Event.mutex_lock] }
  if copy ≠ 0 then pt3_i2c_bus_copy m else m

/-- A register window whose device is never busy and reports no error, with
an instruction store holding `0xff` in every byte. -/
def regs_idle : Regs :=
  { status := fun _ => 0, reads := 0, inst := fun _ => 0xff }

/-- A freshly created bus on `regs_idle`. -/
def m_fresh : Machine := fresh 0 regs_idle (fun _ => 0)

/-- A call of one of the three compiler entry points. -/
inductive Call where
  | start
  | stop
  | write (data : List Nat)

/-- The effect of a call. -/
def Call.exec (m : Machine) : Call → Machine
  | Call.start => pt3_i2c_bus_start m
  | Call.stop => pt3_i2c_bus_stop m
  | Call.write data => pt3_i2c_bus_write m data

/-- The opcodes a call is to append. -/
def Call.opcodes : Call → List Nat
  | Call.start => [I_DATA_H, I_CLOCK_H, I_DATA_L, I_CLOCK_L]
  | Call.stop => [I_DATA_L, I_CLOCK_H, I_DATA_H]
  | Call.write data => write_opcodes data

/-- The effect of a sequence of calls, first to last. -/
def exec_calls (m : Machine) (cs : List Call) : Machine :=
  cs.foldl Call.exec m

/-- The opcodes a sequence of calls is to append. -/
def calls_opcodes (cs : List Call) : List Nat :=
  cs.flatMap Call.opcodes

/-- The machine after 1024 calls of `pt3_i2c_bus_start` on a fresh bus. -/
def m_full : Machine := exec_calls m_fresh (List.replicate 1024 Call.start)

/-- The machine after `pt3_i2c_bus_start` and `pt3_i2c_bus_stop` on a fresh bus. -/
def m_seven : Machine := pt3_i2c_bus_stop (pt3_i2c_bus_start m_fresh)

/-- The events of `run_entry`. -/
def entry_trace (m : Machine) (copy : Int) : List Event :=
  if copy ≠ 0 then
    [Event.mutex_lock, Event.memcpy_inst (m.bus.inst_addr / 2) (m.bus.inst_count / 2)]
  else [Event.mutex_lock]

/-- A register window whose device is busy at the first read, idle at the
second, busy at the third, and from the fourth read on idle with the value 2
in the acknowledge field. -/
def regs_nack : Regs :=
  { status := fun n => [1, 0, 1].getD n 4, reads := 0, inst := fun _ => 0xff }

/-- The machine after start and stop on a fresh bus on `regs_nack`. -/
def m_nack : Machine := pt3_i2c_bus_stop (pt3_i2c_bus_start (fresh 0 regs_nack (fun _ => 0)))

/-! ## Creation and destruction -/

/-- A fault that stops the calling thread. -/
inductive Fault where
  /-- A read through a null pointer. -/
  | null_dereference
  deriving DecidableEq

/-- The kernel heap as `create_pt3_i2c_bus` and `free_pt3_i2c_bus` see it.
A pointer is an address and 0 is `NULL`; a struct field is a map from the
address of the struct to the value of the field. -/
structure Heap where
  /-- Whether the `n`-th call of `kzalloc` (counted from 0) succeeds. -/
  oracle : Nat → Bool
  /-- Number of calls of `kzalloc` so far. -/
  calls : Nat
  /-- Addresses of the blocks that are allocated and not freed. -/
  live : List Nat
  /-- Non-null addresses passed to `kfree` so far, oldest first. -/
  released : List Nat
  /-- Size in bytes of the block at an address. -/
  size : Nat → Nat
  /-- Bytes of the block at an address. -/
  bytes : Nat → Nat → Nat
  /-- Field `base` of the `PT3_I2C_BUS` at an address, `none` for `NULL`. -/
  bus_base : Nat → Option Regs
  /-- Field `lock` of the `PT3_I2C_BUS` at an address, `true` while held. -/
  bus_lock : Nat → Bool
  /-- Field `inst_addr` of the `PT3_I2C_BUS` at an address. -/
  bus_inst_addr : Nat → Nat
  /-- Field `inst_count` of the `PT3_I2C_BUS` at an address. -/
  bus_inst_count : Nat → Nat
  /-- Field `priv` of the `PT3_I2C_BUS` at an address. -/
  bus_priv : Nat → Nat
  /-- Field `sbuf` of the `PT3_I2C_BUS_PRIV_DATA` at an address. -/
  priv_sbuf : Nat → Nat

/-- An address that is not null and not among the live blocks. -/
def new_address (h : Heap) : Nat :=
  h.live.foldl max 0 + 1

/-- The heap after a successful `kzalloc(size, GFP_KERNEL)`: a new block at
`new_address h`, filled with zero bytes. -/
def zeroed_block (h : Heap) (size : Nat) : Heap :=
  { h with
    calls := h.calls + 1
    live := new_address h :: h.live
    size := fun a => if a = new_address h then size else h.size a
    bytes := fun a => if a = new_address h then fun _ => 0 else h.bytes a
    bus_base := fun a => if a = new_address h then none else h.bus_base a
    bus_lock := fun a => if a = new_address h then false else h.bus_lock a
    bus_inst_addr := fun a => if a = new_address h then 0 else h.bus_inst_addr a
    bus_inst_count := fun a => if a = new_address h then 0 else h.bus_inst_count a
    bus_priv := fun a => if a = new_address h then 0 else h.bus_priv a
    priv_sbuf := fun a => if a = new_address h then 0 else h.priv_sbuf a }

/-- The call `kzalloc(size, GFP_KERNEL)`: on success the address of a new
zeroed block, on failure `NULL`. -/
def kzalloc (h : Heap) (size : Nat) : Nat × Heap :=
  if h.oracle h.calls then (new_address h, zeroed_block h size)
  else (0, { h with calls := h.calls + 1 })

/-- The call `kfree(p)`; `kfree(NULL)` does nothing. -/
def kfree (h : Heap) (p : Nat) : Heap :=
  if p = 0 then h
  else { h with live := h.live.erase p, released := h.released ++ [p] }

/-- The function `free_pt3_i2c_bus`.  Its first statement reads `bus->priv`. -/
def free_pt3_i2c_bus (h : Heap) (bus : Nat) : Except Fault Heap :=
  if bus = 0 then Except.error Fault.null_dereference
  else
    let priv := h.bus_priv bus
    let h :=
      if priv ≠ 0 then
        let h := if h.priv_sbuf priv ≠ 0 then kfree h (h.priv_sbuf priv) else h
        kfree h priv
      else h
    Except.ok (kfree h bus)

/-- The statements at the label `fail` of `create_pt3_i2c_bus`. -/
def create_fail (h : Heap) (bus : Nat) : Except Fault (Nat × Heap) :=
  match free_pt3_i2c_bus h bus with
  | Except.error f => Except.error f
  | Except.ok h => Except.ok (0, h)

/-- The function `create_pt3_i2c_bus`; the result is the pointer returned and
the heap after the call.  `sizeof_bus` and `sizeof_priv` stand for
`sizeof(PT3_I2C_BUS)` and `sizeof(PT3_I2C_BUS_PRIV_DATA)`. -/
def create_pt3_i2c_bus (sizeof_bus sizeof_priv : Nat) (regs : Regs) (h : Heap) :
    Except Fault (Nat × Heap) :=
  let (bus, h) := kzalloc h sizeof_bus
  if bus = 0 then create_fail h bus
  else
    let (priv, h) := kzalloc h sizeof_priv
    if priv = 0 then create_fail h bus
    else
      let (sbuf, h) := kzalloc h (MAX_INSTRUCTIONS / 2)
      if sbuf = 0 then create_fail h bus
      else
        let h := { h with bus_lock := fun a => if a = bus then false else h.bus_lock a }
        let h := { h with bus_base := fun a => if a = bus then some regs else h.bus_base a }
        let h := { h with priv_sbuf := fun a => if a = priv then sbuf else h.priv_sbuf a }
        let h := { h with bus_priv := fun a => if a = bus then priv else h.bus_priv a }
        Except.ok (bus, h)

/-- The bus found in the heap at the address `p`, as a value; `beyond` is the
memory that follows its buffer.  There is none while `base` is `NULL`. -/
def load_bus (h : Heap) (p : Nat) (beyond : Nat → Nat) : Option PT3_I2C_BUS :=
  match h.bus_base p with
  | none => none
  | some regs =>
    some
      { base := regs
        lock := h.bus_lock p
        inst_addr := h.bus_inst_addr p
        inst_count := h.bus_inst_count p
        priv :=
          { sbuf := fun i =>
              if i < h.size (h.priv_sbuf (h.bus_priv p)) then
                h.bytes (h.priv_sbuf (h.bus_priv p)) i
              else beyond i } }

/-- A heap without blocks in which the calls of `kzalloc` succeed or fail as
listed, and fail once the list is used up. -/
def heap_with (outcomes : List Bool) : Heap :=
  { oracle := fun n => outcomes.getD n false
    calls := 0
    live := []
    released := []
    size := fun _ => 0
    bytes := fun _ _ => 0
    bus_base := fun _ => none
    bus_lock := fun _ => false
    bus_inst_addr := fun _ => 0
    bus_inst_count := fun _ => 0
    bus_priv := fun _ => 0
    priv_sbuf := fun _ => 0 }

/-! ## More vocabulary of the properties -/

/-- Byte offsets in `priv->sbuf` that the `memcpy` of `add_instruction` stores
to when called in the state `m`: `sizeof(tmp_inst) = 4` bytes from offset
`inst_count / 2` when `inst_count` is odd, none when it is even. -/
def add_instruction_writes (m : Machine) : List Nat :=
  if m.bus.inst_count % 2 ≠ 0 then
    (List.range 4).map fun j => m.bus.inst_count / 2 + j
  else []

/-- Two buses of one driver: they share the file-scope variable `tmp_inst`. -/
structure TwoBuses where
  tmp_inst : Nat
  A : PT3_I2C_BUS
  B : PT3_I2C_BUS

/-- Running a compiler function on bus `A`. -/
def on_A (f : Machine → Machine) (s : TwoBuses) : TwoBuses :=
  let m := f { tmp_inst := s.tmp_inst, bus := s.A, trace := [] }
  { s with tmp_inst := m.tmp_inst, A := m.bus }

/-- Running a compiler function on bus `B`. -/
def on_B (f : Machine → Machine) (s : TwoBuses) : TwoBuses :=
  let m := f { tmp_inst := s.tmp_inst, bus := s.B, trace := [] }
  { s with tmp_inst := m.tmp_inst, B := m.bus }

/-- Calls on the two buses in the order given; `true` marks a call on `A`. -/
def exec_interleaved (s : TwoBuses) (cs : List (Bool × Call)) : TwoBuses :=
  cs.foldl (fun s c => if c.1 then on_A (fun m => c.2.exec m) s else on_B (fun m => c.2.exec m) s) s

/-- The calls on `A` of an interleaving. -/
def calls_on_A (cs : List (Bool × Call)) : List Call :=
  (cs.filter fun c => c.1).map fun c => c.2

/-- Two freshly created buses. -/
def two_fresh : TwoBuses :=
  { tmp_inst := 0, A := fresh_bus regs_idle (fun _ => 0), B := fresh_bus regs_idle (fun _ => 0) }

/-- Whether an event is a read of the status register. -/
def is_status_read : Event → Bool
  | Event.readl _ => true
  | _ => false

/-- Whether an event is a sleep. -/
def is_sleep : Event → Bool
  | Event.sleep => true
  | _ => false

/-- Whether an event is a lock operation. -/
def is_lock_event : Event → Bool
  | Event.mutex_lock => true
  | Event.mutex_unlock => true
  | _ => false

/-- A freshly created bus followed in memory by bytes `0xff`. -/
def m_fresh_ff : Machine := fresh 0 regs_idle (fun _ => 0xff)

/-- The machine after 1022 calls of `pt3_i2c_bus_start` and one call of
`pt3_i2c_bus_stop` on `m_fresh_ff`: 4091 opcodes. -/
def m_4091 : Machine :=
  exec_calls m_fresh_ff (List.replicate 1022 Call.start ++ [Call.stop])

/-- The machine `m_seven` after its caller has set `inst_count` back to 0 to
begin a new program; the buffer still holds the old one. -/
def m_reused : Machine :=
  { m_seven with bus := { m_seven.bus with inst_count := 0 } }

/-! ## Lemmas on the instruction compiler -/

theorem append_all_snoc (m : Machine) (ops : List Nat) (x : Nat) :
    append_all m (ops ++ [x]) = add_instruction (append_all m ops) x := by
  simp [append_all, List.foldl_append]

theorem append_all_append (m : Machine) (xs ys : List Nat) :
    append_all m (xs ++ ys) = append_all (append_all m xs) ys := by
  simp [append_all, List.foldl_append]

theorem u32_of_lt {x : Nat} (h : x < 2 ^ 32) : u32 x = x := Nat.mod_eq_of_lt h

theorem u32_lt (x : Nat) : u32 x < 2 ^ 32 := Nat.mod_lt _ (by norm_num)

theorem u32_add_u32 (a b : Nat) : u32 (u32 a + b) = u32 (a + b) := by
  unfold u32; omega

theorem add_instruction_count (m : Machine) (x : Nat) :
    (add_instruction m x).bus.inst_count = u32 (m.bus.inst_count + 1) := rfl

theorem append_all_count (m : Machine) (ops : List Nat) (hc : m.bus.inst_count < 2 ^ 32) :
    (append_all m ops).bus.inst_count = u32 (m.bus.inst_count + ops.length) := by
  induction ops using List.reverseRecOn with
  | nil => simp [append_all, u32_of_lt hc]
  | append_singleton ops x ih =>
    rw [append_all_snoc, add_instruction_count, ih, u32_add_u32]
    simp [Nat.add_assoc]

theorem bit_shift_mask_one (v s : Nat) :
    BIT_SHIFT_MASK v s 1 = if v.testBit s then 1 else 0 := by
  unfold BIT_SHIFT_MASK
  simp [Nat.testBit, Nat.and_one_is_mod, Nat.one_and_eq_mod_two]
  split <;> omega

theorem testBit_u8 (d i : Nat) (h : i < 8) : (u8 d).testBit i = d.testBit i := by
  unfold u8
  rw [Nat.testBit_mod_two_pow]
  simp [h]

theorem write_byte_eq (m : Machine) (d : Nat) :
    (List.range 8).foldl
        (fun m j =>
          add_instruction m
            (if BIT_SHIFT_MASK (u8 d) (7 - j) 1 ≠ 0 then I_DATA_H_NOP else I_DATA_L_NOP))
        m
      = append_all m ([7, 6, 5, 4, 3, 2, 1, 0].map (bit_opcode d)) := by
  have h : ∀ i, i < 8 →
      (if BIT_SHIFT_MASK (u8 d) i 1 ≠ 0 then I_DATA_H_NOP else I_DATA_L_NOP) = bit_opcode d i := by
    intro i hi
    rw [bit_shift_mask_one, testBit_u8 d i hi]
    unfold bit_opcode
    cases d.testBit i <;> simp
  simp only [List.range, List.range.loop, List.foldl, append_all, List.map]
  simp only [Nat.sub_zero, Nat.reduceSub]
  rw [h 7 (by omega), h 6 (by omega), h 5 (by omega), h 4 (by omega), h 3 (by omega),
    h 2 (by omega), h 1 (by omega), h 0 (by omega)]

theorem write_eq (m : Machine) (data : List Nat) :
    pt3_i2c_bus_write m data = append_all m (write_opcodes data) := by
  induction data generalizing m with
  | nil => simp [pt3_i2c_bus_write, append_all, write_opcodes]
  | cons d ds ih =>
    have hstep : pt3_i2c_bus_write m (d :: ds)
        = pt3_i2c_bus_write
            (add_instruction
              ((List.range 8).foldl
                (fun m j =>
                  add_instruction m
                    (if BIT_SHIFT_MASK (u8 d) (7 - j) 1 ≠ 0 then I_DATA_H_NOP else I_DATA_L_NOP))
                m) I_DATA_H_ACK0) ds := by
      simp only [pt3_i2c_bus_write, List.foldl_cons]
    rw [hstep, ih, write_byte_eq]
    simp [write_opcodes, append_all, List.foldl_append]

theorem write_opcodes_length (data : List Nat) : (write_opcodes data).length = 9 * data.length := by
  induction data with
  | nil => rfl
  | cons d ds ih =>
    have : write_opcodes (d :: ds)
        = ([7, 6, 5, 4, 3, 2, 1, 0].map (bit_opcode d) ++ [I_DATA_H_ACK0]) ++ write_opcodes ds := by
      simp [write_opcodes]
    rw [this, List.length_append, ih]
    simp only [List.length_append, List.length_map, List.length_cons, List.length_nil]
    omega

theorem start_eq (m : Machine) :
    pt3_i2c_bus_start m = append_all m [I_DATA_H, I_CLOCK_H, I_DATA_L, I_CLOCK_L] := rfl

theorem stop_eq (m : Machine) :
    pt3_i2c_bus_stop m = append_all m [I_DATA_L, I_CLOCK_H, I_DATA_H] := rfl

theorem pair_lt {a x : Nat} (ha : a < 16) (hx : x < 16) : a ||| (x <<< 4) < 256 := by
  have h1 : a < 2 ^ 8 := by omega
  have h2 : x <<< 4 < 2 ^ 8 := by
    rw [Nat.shiftLeft_eq]; omega
  exact Nat.or_lt_two_pow h1 h2

theorem getD_snoc (ops : List Nat) (x i : Nat) :
    (ops ++ [x]).getD i 0 = if i < ops.length then ops.getD i 0 else if i = ops.length then x else 0 := by
  by_cases h : i < ops.length
  · rw [List.getD_append _ _ _ _ h]; simp only [h, if_true]
  · rw [List.getD_append_right _ _ _ _ (by omega)]
    simp only [h, if_false]
    by_cases h2 : i = ops.length
    · simp [h2]
    · simp only [h2, if_false]
      have : 0 < i - ops.length := by omega
      obtain ⟨j, hj⟩ : ∃ j, i - ops.length = j + 1 := ⟨i - ops.length - 1, by omega⟩
      rw [hj]; rfl

/-- Packing invariant of a run of appends from count 0. -/
theorem packing_invariant (m : Machine) (h0 : m.bus.inst_count = 0) (ops : List Nat)
    (hops : ∀ x ∈ ops, x < 16) (hn : ops.length < 2 ^ 32) :
    (append_all m ops).bus.inst_count = ops.length ∧
    (ops.length % 2 = 1 → (append_all m ops).tmp_inst = ops.getD (ops.length - 1) 0) ∧
    (∀ k, 2 * k + 1 < ops.length →
      (append_all m ops).bus.priv.sbuf k = ops.getD (2 * k) 0 ||| (ops.getD (2 * k + 1) 0 <<< 4)) := by
  induction ops using List.reverseRecOn with
  | nil => simp [append_all, h0]
  | append_singleton ops x ih =>
    have hx : x < 16 := hops x (by simp)
    have hlen : ops.length + 1 < 2 ^ 32 := by simpa using hn
    obtain ⟨ihc, iht, ihb⟩ := ih (fun y hy => hops y (by simp [hy])) (by omega)
    rw [append_all_snoc]
    simp only [List.length_append, List.length_singleton]
    by_cases hpar : ops.length % 2 = 0
    · -- even index: the opcode goes to `tmp_inst` only
      refine ⟨?_, ?_, ?_⟩
      · simp [add_instruction, ihc, u32_of_lt hlen]
      · intro _
        simp [add_instruction, ihc, hpar, getD_snoc, u32_of_lt (show x < 2 ^ 32 by omega)]
      · intro k hk
        have hk2 : 2 * k + 1 < ops.length := by omega
        simp only [add_instruction, ihc, hpar, ne_eq, not_true_eq_false, if_false]
        rw [ihb k hk2, getD_snoc, getD_snoc]
        simp [hk2, show 2 * k < ops.length by omega]
    · -- odd index: the pair is flushed
      have hodd : ops.length % 2 = 1 := by omega
      have hlast : ops.getD (ops.length - 1) 0 < 16 := by
        have hpos : ops.length - 1 < ops.length := by omega
        rw [List.getD_eq_getElem ops 0 hpos]
        exact hops _ (List.mem_append_left _ (List.getElem_mem _))
      have htmp : u32 ((append_all m ops).tmp_inst ||| u32 (u32 x <<< 4))
          = ops.getD (ops.length - 1) 0 ||| (x <<< 4) := by
        have hp := pair_lt hlast hx
        have hs : x <<< 4 < 2 ^ 32 := by rw [Nat.shiftLeft_eq]; omega
        rw [iht hodd, u32_of_lt (show x < 2 ^ 32 by omega), u32_of_lt hs, u32_of_lt (by omega)]
      refine ⟨?_, ?_, ?_⟩
      · simp [add_instruction, ihc, u32_of_lt hlen]
      · intro h; omega
      · intro k hk
        simp only [add_instruction, ihc, hpar, ne_eq, not_false_eq_true, if_true, if_false, htmp]
        by_cases hk2 : 2 * k + 1 < ops.length
        · have hlt : k < ops.length / 2 := by omega
          simp only [memcpy, show ¬ (ops.length / 2 ≤ k ∧ k < ops.length / 2 + 4) by omega, if_false]
          rw [ihb k hk2, getD_snoc, getD_snoc]
          simp [hk2, show 2 * k < ops.length by omega]
        · have hk3 : 2 * k + 1 = ops.length := by omega
          have hk4 : k = ops.length / 2 := by omega
          have hp := pair_lt hlast hx
          simp only [memcpy, show (ops.length / 2 ≤ k ∧ k < ops.length / 2 + 4) by omega, if_true]
          rw [getD_snoc, getD_snoc]
          simp only [show 2 * k < ops.length by omega, if_true, show ¬ (2 * k + 1 < ops.length) by omega,
            if_false, hk3]
          have : k - ops.length / 2 = 0 := by omega
          rw [this]
          simp only [bytes_u32, Nat.mul_zero, Nat.shiftRight_zero]
          rw [show 2 * k = ops.length - 1 by omega]
          simp only [and_self, if_true, Nat.lt_irrefl, if_false]
          exact Nat.mod_eq_of_lt hp

theorem nibbles_of_pair : ∀ a, a < 16 → ∀ b, b < 16 →
    (a ||| (b <<< 4)) &&& 0xf = a ∧ ((a ||| (b <<< 4)) >>> 4) &&& 0xf = b := by
  decide

theorem call_exec_eq (m : Machine) (c : Call) : c.exec m = append_all m c.opcodes := by
  cases c with
  | start => exact start_eq m
  | stop => exact stop_eq m
  | write data => exact write_eq m data

theorem exec_calls_eq (m : Machine) (cs : List Call) :
    exec_calls m cs = append_all m (calls_opcodes cs) := by
  induction cs generalizing m with
  | nil => rfl
  | cons c cs ih =>
    have h1 : exec_calls m (c :: cs) = exec_calls (c.exec m) cs := rfl
    have h2 : calls_opcodes (c :: cs) = c.opcodes ++ calls_opcodes cs := by
      simp [calls_opcodes]
    rw [h1, h2, ih, call_exec_eq, append_all_append]

theorem write_opcodes_lt (data : List Nat) : ∀ x ∈ write_opcodes data, x < 16 := by
  intro x hx
  simp only [write_opcodes, List.mem_flatMap, List.mem_append, List.mem_map,
    List.mem_singleton] at hx
  obtain ⟨d, -, h⟩ := hx
  rcases h with ⟨i, -, rfl⟩ | rfl
  · unfold bit_opcode; split <;> decide
  · decide

theorem calls_opcodes_lt (cs : List Call) : ∀ x ∈ calls_opcodes cs, x < 16 := by
  intro x hx
  simp only [calls_opcodes, List.mem_flatMap] at hx
  obtain ⟨c, -, h⟩ := hx
  cases c with
  | start => revert x; decide
  | stop => revert x; decide
  | write data => exact write_opcodes_lt data x h

theorem decode_pairs (m : Machine) (h0 : m.bus.inst_count = 0) (ops : List Nat)
    (hops : ∀ x ∈ ops, x < 16) (hn : ops.length < 2 ^ 32) :
    decode (append_all m ops).bus.priv.sbuf (2 * (ops.length / 2))
      = ops.take (2 * (ops.length / 2)) := by
  obtain ⟨-, -, hb⟩ := packing_invariant m h0 ops hops hn
  apply List.ext_getElem
  · simp only [decode, List.length_map, List.length_range, List.length_take]
    omega
  · intro i h1 h2
    simp only [decode, List.length_map, List.length_range] at h1
    simp only [decode, List.getElem_map, List.getElem_range, List.getElem_take]
    have hk : 2 * (i / 2) + 1 < ops.length := by omega
    have ha : ops.getD (2 * (i / 2)) 0 < 16 := by
      rw [List.getD_eq_getElem ops 0 (show 2 * (i / 2) < ops.length by omega)]
      exact hops _ (List.getElem_mem _)
    have hb2 : ops.getD (2 * (i / 2) + 1) 0 < 16 := by
      rw [List.getD_eq_getElem ops 0 hk]
      exact hops _ (List.getElem_mem _)
    obtain ⟨hlo, hhi⟩ := nibbles_of_pair _ ha _ hb2
    unfold decode_opcode
    rw [hb (i / 2) hk]
    by_cases hpar : i % 2 = 0
    · simp only [hpar, if_true]
      rw [hlo, List.getD_eq_getElem ops 0 (show 2 * (i / 2) < ops.length by omega)]
      congr 1; omega
    · simp only [hpar, if_false]
      rw [hhi, List.getD_eq_getElem ops 0 hk]
      congr 1; omega

/-! ## Lemmas on the execution engine -/

theorem wait_spec (fuel : Nat) (m m' : Machine) (v : Nat) (h : wait fuel m = some (m', v)) :
    ∃ k, k < fuel ∧
      (∀ i, i < k → BIT_SHIFT_MASK (u32 (m.bus.base.status (m.bus.base.reads + i))) 0 1 ≠ 0) ∧
      BIT_SHIFT_MASK v 0 1 = 0 ∧
      v = u32 (m.bus.base.status (m.bus.base.reads + k)) ∧
      m' = after_poll m k := by
  induction fuel generalizing m with
  | zero => simp [wait] at h
  | succ fuel ih =>
    simp only [wait, readl_status] at h
    split at h
    · rename_i hidle
      simp only [Option.some.injEq, Prod.mk.injEq] at h
      obtain ⟨hm, hv⟩ := h
      refine ⟨0, by omega, by intro i hi; omega, ?_, ?_, ?_⟩
      · rw [← hv]; exact hidle
      · rw [← hv]; rfl
      · rw [← hm]; rfl
    · rename_i hbusy
      obtain ⟨k, hk, hb, hidle, hv, hm⟩ := ih _ h
      refine ⟨k + 1, by omega, ?_, hidle, ?_, ?_⟩
      · intro i hi
        cases i with
        | zero => exact hbusy
        | succ i =>
          have := hb i (by omega)
          simp only [schedule_timeout_interruptible] at this
          rw [show m.bus.base.reads + (i + 1) = m.bus.base.reads + 1 + i by omega]
          exact this
      · rw [hv]
        simp only [schedule_timeout_interruptible]
        rw [show m.bus.base.reads + (k + 1) = m.bus.base.reads + 1 + k by omega]
      · rw [hm]
        simp only [after_poll, schedule_timeout_interruptible, poll_trace, List.append_assoc,
          List.singleton_append, List.cons_append, List.nil_append]
        rw [show m.bus.base.reads + 1 + (k + 1) = m.bus.base.reads + (k + 1 + 1) by omega]

theorem run_code_spec (fuel : Nat) (m m' : Machine) (start_addr : Nat) (ack ack' : Option Nat)
    (ret : Int) (h : run_code fuel m start_addr ack = some (m', ret, ack')) :
    ∃ k1 k2 s,
      k1 < fuel ∧ k2 < fuel ∧
      BIT_SHIFT_MASK (u32 (m.bus.base.status (m.bus.base.reads + k1))) 0 1 = 0 ∧
      s = u32 (m.bus.base.status (m.bus.base.reads + (k1 + 1) + k2)) ∧
      BIT_SHIFT_MASK s 0 1 = 0 ∧
      m' = after_poll (writel_command (after_poll m k1) (1 <<< 16 ||| start_addr)) k2 ∧
      ret = (if BIT_SHIFT_MASK s 1 2 ≠ 0 then -1 else 0) ∧
      ack' = ack.map (fun _ => BIT_SHIFT_MASK s 1 2) := by
  unfold run_code at h
  cases h1 : wait fuel m with
  | none => simp [h1] at h
  | some r1 =>
    obtain ⟨m1, v1⟩ := r1
    simp only [h1] at h
    cases h2 : wait fuel (writel_command m1 (1 <<< 16 ||| start_addr)) with
    | none => rw [h2] at h; exact absurd h (by simp)
    | some r2 =>
      obtain ⟨m2, v2⟩ := r2
      simp only [h2, Option.some.injEq, Prod.mk.injEq] at h
      obtain ⟨hm, hret, hack⟩ := h
      obtain ⟨k1, hk1, -, hidle1, hv1, hm1⟩ := wait_spec fuel m m1 v1 h1
      obtain ⟨k2, hk2, -, hidle2, hv2, hm2⟩ := wait_spec fuel _ m2 v2 h2
      refine ⟨k1, k2, v2, hk1, hk2, ?_, ?_, hidle2, ?_, hret.symm, hack.symm⟩
      · rw [← hv1]; exact hidle1
      · rw [hv2, hm1]; rfl
      · rw [← hm, hm2, hm1]

theorem run_spec (fuel : Nat) (m m' : Machine) (ack ack' : Option Nat) (copy ret : Int)
    (h : pt3_i2c_bus_run fuel m ack copy = some (m', ret, ack')) :
    m.bus.lock = false ∧
    ∃ k1 k2 s,
      k1 < fuel ∧ k2 < fuel ∧
      BIT_SHIFT_MASK (u32 (m.bus.base.status (m.bus.base.reads + k1))) 0 1 = 0 ∧
      s = u32 (m.bus.base.status (m.bus.base.reads + (k1 + 1) + k2)) ∧
      BIT_SHIFT_MASK s 0 1 = 0 ∧
      m' = mutex_unlock
        (after_poll (writel_command (after_poll (run_entry m copy) k1)
          (1 <<< 16 ||| m.bus.inst_addr)) k2) ∧
      ret = (if BIT_SHIFT_MASK s 1 2 ≠ 0 then -1 else 0) ∧
      ack' = ack.map (fun _ => BIT_SHIFT_MASK s 1 2) := by
  unfold pt3_i2c_bus_run mutex_lock at h
  by_cases hl : m.bus.lock = true
  · simp [hl] at h
  · simp only [hl, Bool.false_eq_true, if_false] at h
    have hentry : (if copy ≠ 0 then
          pt3_i2c_bus_copy { m with bus := { m.bus with lock := true },
                                    trace := m.trace ++ [Event.mutex_lock] }
        else { m with bus := { m.bus with lock := true },
                      trace := m.trace ++ [Event.mutex_lock] }) = run_entry m copy := rfl
    rw [hentry] at h
    cases h1 : run_code fuel (run_entry m copy) (run_entry m copy).bus.inst_addr ack with
    | none => rw [h1] at h; exact absurd h (by simp)
    | some r =>
      obtain ⟨m1, ret1, ack1⟩ := r
      simp only [h1, Option.some.injEq, Prod.mk.injEq] at h
      obtain ⟨hm, hret, hack⟩ := h
      obtain ⟨k1, k2, s, hk1, hk2, hidle1, hs, hidle2, hm1, hr, ha⟩ :=
        run_code_spec fuel _ m1 _ ack ack1 ret1 h1
      have haddr : (run_entry m copy).bus.inst_addr = m.bus.inst_addr := by
        unfold run_entry; split <;> rfl
      have hst : (run_entry m copy).bus.base.status = m.bus.base.status := by
        unfold run_entry; split <;> rfl
      have hrd : (run_entry m copy).bus.base.reads = m.bus.base.reads := by
        unfold run_entry; split <;> rfl
      rw [hst, hrd] at hidle1 hs
      rw [haddr] at hm1
      refine ⟨by simpa using hl, k1, k2, s, hk1, hk2, hidle1, hs, hidle2, ?_, ?_, ?_⟩
      · rw [← hm, hm1]
      · rw [← hret, hr]
      · rw [← hack, ha]

theorem poll_trace_split (status : Nat → Nat) (start k : Nat) :
    ∃ pre, poll_trace status start k = pre ++ [Event.readl (u32 (status (start + k)))] ∧
      ∀ e ∈ pre, is_command_write e = false := by
  induction k generalizing start with
  | zero => exact ⟨[], rfl, by simp⟩
  | succ k ih =>
    obtain ⟨pre, hpre, hno⟩ := ih (start + 1)
    refine ⟨Event.readl (u32 (status start)) :: Event.sleep :: pre, ?_, ?_⟩
    · simp only [poll_trace, hpre, List.cons_append]
      rw [show start + 1 + k = start + (k + 1) by omega]
    · intro e he
      simp only [List.mem_cons] at he
      rcases he with rfl | rfl | he
      · rfl
      · rfl
      · exact hno e he

theorem poll_trace_no_write (status : Nat → Nat) (start k : Nat) :
    ∀ e ∈ poll_trace status start k, is_command_write e = false := by
  obtain ⟨pre, hpre, hno⟩ := poll_trace_split status start k
  intro e he
  rw [hpre, List.mem_append, List.mem_singleton] at he
  rcases he with he | rfl
  · exact hno e he
  · rfl

theorem run_entry_trace (m : Machine) (copy : Int) :
    (run_entry m copy).trace = m.trace ++ entry_trace m copy := by
  unfold run_entry entry_trace
  split <;> simp [pt3_i2c_bus_copy]

theorem entry_trace_no_write (m : Machine) (copy : Int) :
    ∀ e ∈ entry_trace m copy, is_command_write e = false := by
  intro e he
  unfold entry_trace at he
  split at he
  · simp only [List.mem_cons, List.mem_singleton, List.not_mem_nil, or_false] at he
    rcases he with rfl | rfl <;> rfl
  · simp only [List.mem_singleton] at he
    subst he; rfl

theorem run_trace (m : Machine) (copy : Int) (k1 k2 w : Nat) :
    (mutex_unlock (after_poll (writel_command (after_poll (run_entry m copy) k1) w) k2)).trace
      = m.trace ++ (entry_trace m copy
          ++ poll_trace m.bus.base.status m.bus.base.reads k1
          ++ [Event.writel (u32 w)]
          ++ poll_trace m.bus.base.status (m.bus.base.reads + (k1 + 1)) k2
          ++ [Event.mutex_unlock]) := by
  have hst : (run_entry m copy).bus.base.status = m.bus.base.status := by
    unfold run_entry; split <;> rfl
  have hrd : (run_entry m copy).bus.base.reads = m.bus.base.reads := by
    unfold run_entry; split <;> rfl
  simp only [mutex_unlock, after_poll, writel_command, run_entry_trace, hst, hrd,
    List.append_assoc]

theorem bit_shift_mask_ack (s : Nat) : BIT_SHIFT_MASK s 1 2 = (s >>> 1) &&& 3 := rfl

theorem start_count (m : Machine) (hc : m.bus.inst_count < 2 ^ 32) :
    (pt3_i2c_bus_start m).bus.inst_count = u32 (m.bus.inst_count + 4) := by
  rw [start_eq, append_all_count m _ hc]; rfl

theorem stop_count (m : Machine) (hc : m.bus.inst_count < 2 ^ 32) :
    (pt3_i2c_bus_stop m).bus.inst_count = u32 (m.bus.inst_count + 3) := by
  rw [stop_eq, append_all_count m _ hc]; rfl

theorem write_count (m : Machine) (data : List Nat) (hc : m.bus.inst_count < 2 ^ 32) :
    (pt3_i2c_bus_write m data).bus.inst_count = u32 (m.bus.inst_count + 9 * data.length) := by
  rw [write_eq, append_all_count m _ hc, write_opcodes_length]

theorem calls_opcodes_replicate_start (n : Nat) :
    (calls_opcodes (List.replicate n Call.start)).length = 4 * n := by
  induction n with
  | zero => rfl
  | succ n ih =>
    have : calls_opcodes (List.replicate (n + 1) Call.start)
        = Call.start.opcodes ++ calls_opcodes (List.replicate n Call.start) := by
      simp [calls_opcodes, List.replicate_succ]
    rw [this, List.length_append, ih]
    simp only [Call.opcodes, List.length_cons, List.length_nil]
    omega

theorem m_full_count : m_full.bus.inst_count = 4096 := by
  unfold m_full
  rw [exec_calls_eq, append_all_count _ _ (by decide), calls_opcodes_replicate_start]
  decide

theorem run_count (fuel : Nat) (m m' : Machine) (ack ack' : Option Nat) (copy ret : Int)
    (h : pt3_i2c_bus_run fuel m ack copy = some (m', ret, ack')) :
    m'.bus.inst_count = m.bus.inst_count := by
  obtain ⟨-, k1, k2, s, -, -, -, -, -, hm, -, -⟩ := run_spec fuel m m' ack ack' copy ret h
  rw [hm]
  show (run_entry m copy).bus.inst_count = m.bus.inst_count
  unfold run_entry
  split <;> rfl

theorem command_word_bits (a : Nat) (ha : a < 2 ^ 16) :
    (1 <<< 16 ||| a).testBit 16 = true ∧ (1 <<< 16 ||| a).testBit 17 = false ∧
    (1 <<< 16 ||| a) % 2 ^ 16 = a := by
  have h17 : a < 2 ^ 17 := by omega
  have e : (1 <<< 16 : Nat) = 2 ^ 16 := by decide
  rw [e]
  refine ⟨?_, ?_, ?_⟩
  · rw [Nat.testBit_or, Nat.testBit_two_pow_self]
    rfl
  · rw [Nat.testBit_or, Nat.testBit_lt_two_pow h17, Nat.testBit_two_pow_of_ne (by decide)]
    rfl
  · apply Nat.eq_of_testBit_eq
    intro i
    rw [Nat.testBit_mod_two_pow, Nat.testBit_or]
    by_cases hi : i < 16
    · rw [Nat.testBit_two_pow_of_ne (by omega)]
      simp [hi]
    · have hle : 2 ^ 16 ≤ 2 ^ i := Nat.pow_le_pow_right (by decide) (by omega)
      rw [Nat.testBit_lt_two_pow (show a < 2 ^ i by omega)]
      simp [hi]

theorem command_word_u32 (a : Nat) (ha : a < 2 ^ 32) : u32 (1 <<< 16 ||| a) = 1 <<< 16 ||| a := by
  apply u32_of_lt
  exact Nat.or_lt_two_pow (by decide) ha

/-! ## Lemmas on creation and destruction -/

theorem foldl_max_ge (l : List Nat) (b : Nat) :
    b ≤ l.foldl max b ∧ ∀ a ∈ l, a ≤ l.foldl max b := by
  induction l generalizing b with
  | nil => simp
  | cons x xs ih =>
    obtain ⟨h1, h2⟩ := ih (max b x)
    refine ⟨?_, ?_⟩
    · exact Nat.le_trans (Nat.le_max_left b x) h1
    · intro a ha
      rw [List.mem_cons] at ha
      rcases ha with rfl | ha
      · exact Nat.le_trans (Nat.le_max_right b a) h1
      · exact h2 a ha

theorem new_address_ne_zero (h : Heap) : new_address h ≠ 0 := by
  unfold new_address; omega

theorem new_address_not_live (h : Heap) : new_address h ∉ h.live := by
  intro hmem
  have := (foldl_max_ge h.live 0).2 _ hmem
  unfold new_address at this
  omega

theorem new_address_zeroed_block (h : Heap) (size : Nat) :
    new_address (zeroed_block h size) ≠ new_address h ∧
    new_address (zeroed_block h size) ∉ h.live := by
  have hn := new_address_not_live (zeroed_block h size)
  have hl : (zeroed_block h size).live = new_address h :: h.live := rfl
  rw [hl, List.mem_cons, not_or] at hn
  exact hn

theorem create_first_fails (sizeof_bus sizeof_priv : Nat) (regs : Regs) (h : Heap)
    (ho : h.oracle h.calls = false) :
    create_pt3_i2c_bus sizeof_bus sizeof_priv regs h = Except.error Fault.null_dereference := by
  simp [create_pt3_i2c_bus, kzalloc, ho, create_fail, free_pt3_i2c_bus]

theorem create_second_fails (sizeof_bus sizeof_priv : Nat) (regs : Regs) (h : Heap)
    (h1 : h.oracle h.calls = true) (h2 : h.oracle (h.calls + 1) = false) :
    ∃ h', create_pt3_i2c_bus sizeof_bus sizeof_priv regs h = Except.ok (0, h') ∧
      h'.live = h.live ∧ h'.released = h.released ++ [new_address h] := by
  have hne := new_address_ne_zero h
  simp [create_pt3_i2c_bus, kzalloc, zeroed_block, h1, h2, hne, create_fail, free_pt3_i2c_bus,
    kfree]

theorem create_third_fails (sizeof_bus sizeof_priv : Nat) (regs : Regs) (h : Heap)
    (h1 : h.oracle h.calls = true) (h2 : h.oracle (h.calls + 1) = true)
    (h3 : h.oracle (h.calls + 2) = false) :
    ∃ h', create_pt3_i2c_bus sizeof_bus sizeof_priv regs h = Except.ok (0, h') ∧
      h'.live = new_address (zeroed_block h sizeof_bus) :: h.live ∧
      h'.released = h.released ++ [new_address h] := by
  have hb0 := new_address_ne_zero h
  have hp0 := new_address_ne_zero (zeroed_block h sizeof_bus)
  obtain ⟨hpb, hpl⟩ := new_address_zeroed_block h sizeof_bus
  have e1 : (zeroed_block h sizeof_bus).oracle = h.oracle := rfl
  have e2 : (zeroed_block h sizeof_bus).calls = h.calls + 1 := rfl
  have e3 : (zeroed_block (zeroed_block h sizeof_bus) sizeof_priv).oracle = h.oracle := rfl
  have e4 : (zeroed_block (zeroed_block h sizeof_bus) sizeof_priv).calls = h.calls + 2 := rfl
  have e5 : (zeroed_block (zeroed_block h sizeof_bus) sizeof_priv).bus_priv (new_address h) = 0 := by
    simp [zeroed_block]
  have e6 : (zeroed_block (zeroed_block h sizeof_bus) sizeof_priv).live
      = new_address (zeroed_block h sizeof_bus) :: new_address h :: h.live := rfl
  have e7 : (zeroed_block (zeroed_block h sizeof_bus) sizeof_priv).released = h.released := rfl
  simp only [create_pt3_i2c_bus, kzalloc, h1, if_true, hb0, if_false, e1, e2, h2, hp0, e3, e4, h3,
    Bool.false_eq_true, create_fail, free_pt3_i2c_bus, e5, ne_eq, not_true_eq_false, kfree]
  refine ⟨_, rfl, ?_, ?_⟩
  · simp only [e6]
    rw [List.erase_cons_tail (by simpa using hpb), List.erase_cons_head]
  · simp only [e7]

theorem create_succeeds (sizeof_bus sizeof_priv : Nat) (regs : Regs) (h : Heap)
    (beyond : Nat → Nat)
    (h1 : h.oracle h.calls = true) (h2 : h.oracle (h.calls + 1) = true)
    (h3 : h.oracle (h.calls + 2) = true) :
    ∃ h', create_pt3_i2c_bus sizeof_bus sizeof_priv regs h = Except.ok (new_address h, h') ∧
      new_address h ≠ 0 ∧
      load_bus h' (new_address h) beyond = some (fresh_bus regs beyond) ∧
      h'.live = h'.priv_sbuf (h'.bus_priv (new_address h)) :: h'.bus_priv (new_address h)
        :: new_address h :: h.live ∧
      h'.size (h'.priv_sbuf (h'.bus_priv (new_address h))) = MAX_INSTRUCTIONS / 2 ∧
      h'.released = h.released := by
  have hb0 := new_address_ne_zero h
  have hp0 := new_address_ne_zero (zeroed_block h sizeof_bus)
  have hs0 := new_address_ne_zero (zeroed_block (zeroed_block h sizeof_bus) sizeof_priv)
  obtain ⟨hpb, -⟩ := new_address_zeroed_block h sizeof_bus
  have e1 : (zeroed_block h sizeof_bus).oracle = h.oracle := rfl
  have e2 : (zeroed_block h sizeof_bus).calls = h.calls + 1 := rfl
  have e3 : (zeroed_block (zeroed_block h sizeof_bus) sizeof_priv).oracle = h.oracle := rfl
  have e4 : (zeroed_block (zeroed_block h sizeof_bus) sizeof_priv).calls = h.calls + 2 := rfl
  simp only [create_pt3_i2c_bus, kzalloc, h1, if_true, hb0, if_false, e1, e2, h2, hp0, e3, e4, h3,
    hs0]
  refine ⟨_, rfl, hb0, ?_, ?_, ?_, rfl⟩
  · simp only [load_bus, if_true, fresh_bus]
    simp [zeroed_block, hpb, MAX_INSTRUCTIONS]
  · simp [zeroed_block, hpb]
  · simp [zeroed_block, hpb]

/-! ## Lemmas on the extent of the stores -/

theorem add_instruction_sbuf_odd (m : Machine) (x a : Nat) (hodd : m.bus.inst_count % 2 = 1) :
    (add_instruction m x).bus.priv.sbuf a
      = if m.bus.inst_count / 2 ≤ a ∧ a < m.bus.inst_count / 2 + 4 then
          bytes_u32 (u32 (m.tmp_inst ||| u32 (u32 x <<< 4))) (a - m.bus.inst_count / 2)
        else m.bus.priv.sbuf a := by
  simp [add_instruction, memcpy, hodd]

theorem add_instruction_sbuf_even (m : Machine) (x : Nat) (heven : m.bus.inst_count % 2 = 0) :
    (add_instruction m x).bus.priv.sbuf = m.bus.priv.sbuf := by
  simp [add_instruction, heven]

theorem mem_add_instruction_writes (m : Machine) (a : Nat) :
    a ∈ add_instruction_writes m ↔
      m.bus.inst_count % 2 = 1 ∧ m.bus.inst_count / 2 ≤ a ∧ a < m.bus.inst_count / 2 + 4 := by
  unfold add_instruction_writes
  by_cases hpar : m.bus.inst_count % 2 = 0
  · simp [hpar]
  · have hodd : m.bus.inst_count % 2 = 1 := by omega
    rw [if_pos hpar, List.mem_map]
    constructor
    · rintro ⟨j, hj, rfl⟩
      rw [List.mem_range] at hj
      omega
    · intro h
      exact ⟨a - m.bus.inst_count / 2, List.mem_range.mpr (by omega), by omega⟩

theorem add_instruction_frame (m : Machine) (x a : Nat) (ha : a ∉ add_instruction_writes m) :
    (add_instruction m x).bus.priv.sbuf a = m.bus.priv.sbuf a := by
  rw [mem_add_instruction_writes] at ha
  by_cases hpar : m.bus.inst_count % 2 = 0
  · rw [add_instruction_sbuf_even m x hpar]
  · have hodd : m.bus.inst_count % 2 = 1 := by omega
    rw [add_instruction_sbuf_odd m x a hodd, if_neg (by tauto)]

theorem append_all_frame (m : Machine) (h0 : m.bus.inst_count = 0) (ops : List Nat)
    (hn : ops.length < 2 ^ 32) (a : Nat) (ha : ops.length / 2 + 3 ≤ a) :
    (append_all m ops).bus.priv.sbuf a = m.bus.priv.sbuf a := by
  induction ops using List.reverseRecOn with
  | nil => rfl
  | append_singleton ops x ih =>
    simp only [List.length_append, List.length_singleton] at hn ha
    have hc : (append_all m ops).bus.inst_count = ops.length := by
      rw [append_all_count m ops (by rw [h0]; decide), h0, Nat.zero_add, u32_of_lt (by omega)]
    rw [append_all_snoc, add_instruction_frame, ih (by omega) (by omega)]
    rw [mem_add_instruction_writes, hc]
    omega

theorem calls_opcodes_append (xs ys : List Call) :
    calls_opcodes (xs ++ ys) = calls_opcodes xs ++ calls_opcodes ys := by
  simp [calls_opcodes, List.flatMap_append]

theorem m_4091_length :
    (calls_opcodes (List.replicate 1022 Call.start ++ [Call.stop])).length = 4091 := by
  rw [calls_opcodes_append, List.length_append, calls_opcodes_replicate_start]
  rfl

theorem m_4091_count : m_4091.bus.inst_count = 4091 := by
  unfold m_4091
  rw [exec_calls_eq, append_all_count _ _ (by decide), m_4091_length]
  decide

theorem m_4091_tmp_inst : m_4091.tmp_inst < 16 := by
  have hops := calls_opcodes_lt (List.replicate 1022 Call.start ++ [Call.stop])
  obtain ⟨-, ht, -⟩ := packing_invariant m_fresh_ff rfl _ hops (by rw [m_4091_length]; decide)
  unfold m_4091
  rw [exec_calls_eq, ht (by rw [m_4091_length])]
  rw [List.getD_eq_getElem _ 0 (by rw [m_4091_length]; decide)]
  exact hops _ (List.getElem_mem _)

theorem m_4091_byte_2048 : m_4091.bus.priv.sbuf 2048 = 0xff := by
  unfold m_4091
  rw [exec_calls_eq, append_all_frame m_fresh_ff rfl _ (by rw [m_4091_length]; decide) 2048
    (by rw [m_4091_length])]
  decide

theorem bytes_u32_high (v j : Nat) (hv : v < 256) (hj : 1 ≤ j) : bytes_u32 v j = 0 := by
  unfold bytes_u32
  rw [Nat.shiftRight_eq_div_pow]
  have h8 : 2 ^ 8 ≤ 2 ^ (8 * j) := Nat.pow_le_pow_right (by decide) (by omega)
  rw [Nat.div_eq_of_lt (by omega)]

theorem packed_pair_lt (t x : Nat) (ht : t < 16) (hx : x < 16) :
    u32 (t ||| u32 (u32 x <<< 4)) < 256 := by
  have hp := pair_lt ht hx
  have hs : x <<< 4 < 2 ^ 32 := by rw [Nat.shiftLeft_eq]; omega
  rw [u32_of_lt (show x < 2 ^ 32 by omega), u32_of_lt hs, u32_of_lt (by omega)]
  exact hp

/-! ## Lemmas on termination of the polling -/

theorem wait_complete (k : Nat) : ∀ (fuel : Nat) (m : Machine),
    (∀ i, i < k → BIT_SHIFT_MASK (u32 (m.bus.base.status (m.bus.base.reads + i))) 0 1 ≠ 0) →
    BIT_SHIFT_MASK (u32 (m.bus.base.status (m.bus.base.reads + k))) 0 1 = 0 →
    k < fuel →
    wait fuel m = some (after_poll m k, u32 (m.bus.base.status (m.bus.base.reads + k))) := by
  induction k with
  | zero =>
    intro fuel m _ hidle hf
    obtain ⟨f, rfl⟩ : ∃ f, fuel = f + 1 := ⟨fuel - 1, by omega⟩
    simp only [Nat.add_zero] at hidle
    simp only [wait, readl_status, hidle, if_true, Nat.add_zero]
    rfl
  | succ k ih =>
    intro fuel m hbusy hidle hf
    obtain ⟨f, rfl⟩ : ∃ f, fuel = f + 1 := ⟨fuel - 1, by omega⟩
    have hb0 := hbusy 0 (by omega)
    simp only [Nat.add_zero] at hb0
    simp only [wait, readl_status, hb0, if_false]
    rw [ih f _ ?_ ?_ (by omega)]
    · simp only [after_poll, schedule_timeout_interruptible, poll_trace, List.append_assoc,
        List.singleton_append, List.cons_append, List.nil_append]
      rw [show m.bus.base.reads + 1 + (k + 1) = m.bus.base.reads + (k + 1 + 1) by omega,
        show m.bus.base.reads + 1 + k = m.bus.base.reads + (k + 1) by omega]
    · intro i hi
      have := hbusy (i + 1) (by omega)
      simp only [schedule_timeout_interruptible]
      rw [show m.bus.base.reads + 1 + i = m.bus.base.reads + (i + 1) by omega]
      exact this
    · simp only [schedule_timeout_interruptible]
      rw [show m.bus.base.reads + 1 + k = m.bus.base.reads + (k + 1) by omega]
      exact hidle

theorem poll_trace_counts (status : Nat → Nat) (start k : Nat) :
    (poll_trace status start k).countP is_status_read = k + 1 ∧
    (poll_trace status start k).countP is_sleep = k ∧
    (poll_trace status start k).length = 2 * k + 1 := by
  induction k generalizing start with
  | zero => exact ⟨rfl, rfl, rfl⟩
  | succ k ih =>
    obtain ⟨h1, h2, h3⟩ := ih (start + 1)
    simp only [poll_trace, List.countP_cons, h1, h2, h3, is_status_read, is_sleep, List.length_cons]
    refine ⟨by simp, by simp, by omega⟩

theorem poll_trace_no_lock (status : Nat → Nat) (start k : Nat) :
    ∀ e ∈ poll_trace status start k, is_lock_event e = false := by
  induction k generalizing start with
  | zero =>
    intro e he
    simp only [poll_trace, List.mem_singleton] at he
    subst he; rfl
  | succ k ih =>
    intro e he
    simp only [poll_trace, List.mem_cons] at he
    rcases he with rfl | rfl | he
    · rfl
    · rfl
    · exact ih _ e he

theorem run_complete (fuel : Nat) (m : Machine) (ack : Option Nat) (copy : Int) (k1 k2 : Nat)
    (hlock : m.bus.lock = false)
    (hb1 : ∀ i, i < k1 →
      BIT_SHIFT_MASK (u32 (m.bus.base.status (m.bus.base.reads + i))) 0 1 ≠ 0)
    (hi1 : BIT_SHIFT_MASK (u32 (m.bus.base.status (m.bus.base.reads + k1))) 0 1 = 0)
    (hb2 : ∀ i, i < k2 →
      BIT_SHIFT_MASK (u32 (m.bus.base.status (m.bus.base.reads + (k1 + 1) + i))) 0 1 ≠ 0)
    (hi2 : BIT_SHIFT_MASK (u32 (m.bus.base.status (m.bus.base.reads + (k1 + 1) + k2))) 0 1 = 0)
    (hf1 : k1 < fuel) (hf2 : k2 < fuel) :
    pt3_i2c_bus_run fuel m ack copy
      = some
          (mutex_unlock
            (after_poll (writel_command (after_poll (run_entry m copy) k1)
              (1 <<< 16 ||| m.bus.inst_addr)) k2),
           if BIT_SHIFT_MASK (u32 (m.bus.base.status (m.bus.base.reads + (k1 + 1) + k2))) 1 2 ≠ 0
             then -1 else 0,
           ack.map fun _ =>
             BIT_SHIFT_MASK (u32 (m.bus.base.status (m.bus.base.reads + (k1 + 1) + k2))) 1 2) := by
  have hst : (run_entry m copy).bus.base.status = m.bus.base.status := by
    unfold run_entry; split <;> rfl
  have hrd : (run_entry m copy).bus.base.reads = m.bus.base.reads := by
    unfold run_entry; split <;> rfl
  have haddr : (run_entry m copy).bus.inst_addr = m.bus.inst_addr := by
    unfold run_entry; split <;> rfl
  have hentry : (if copy ≠ 0 then
        pt3_i2c_bus_copy { m with bus := { m.bus with lock := true },
                                  trace := m.trace ++ [Event.mutex_lock] }
      else { m with bus := { m.bus with lock := true },
                    trace := m.trace ++ [Event.mutex_lock] }) = run_entry m copy := rfl
  have hw1 : wait fuel (run_entry m copy)
      = some (after_poll (run_entry m copy) k1,
          u32 (m.bus.base.status (m.bus.base.reads + k1))) := by
    rw [wait_complete k1 fuel (run_entry m copy) (by rw [hst, hrd]; exact hb1)
      (by rw [hst, hrd]; exact hi1) hf1, hst, hrd]
  have hw2 : wait fuel (writel_command (after_poll (run_entry m copy) k1)
        (1 <<< 16 ||| m.bus.inst_addr))
      = some (after_poll (writel_command (after_poll (run_entry m copy) k1)
            (1 <<< 16 ||| m.bus.inst_addr)) k2,
          u32 (m.bus.base.status (m.bus.base.reads + (k1 + 1) + k2))) := by
    have e1 : (writel_command (after_poll (run_entry m copy) k1)
        (1 <<< 16 ||| m.bus.inst_addr)).bus.base.status = m.bus.base.status := hst
    have e2 : (writel_command (after_poll (run_entry m copy) k1)
        (1 <<< 16 ||| m.bus.inst_addr)).bus.base.reads = m.bus.base.reads + (k1 + 1) := by
      show (run_entry m copy).bus.base.reads + (k1 + 1) = _
      rw [hrd]
    rw [wait_complete k2 fuel _ (by rw [e1, e2]; exact hb2) (by rw [e1, e2]; exact hi2) hf2,
      e1, e2]
  unfold pt3_i2c_bus_run mutex_lock
  simp only [hlock, Bool.false_eq_true, if_false]
  rw [hentry]
  unfold run_code
  rw [hw1]
  simp only [haddr]
  rw [hw2]

/-! ## The claims -/

/-- Claim C1. Packing layout: when 4-bit opcodes `ops`, at most
`MAX_INSTRUCTIONS` of them, are appended one by one with `add_instruction` to a
bus whose `inst_count` is 0 (as on a fresh bus), then for every `k` with
`2 * k + 1 < ops.length` byte `k` of the packed buffer equals
`ops[2 * k] ||| (ops[2 * k + 1] <<< 4)` after the last append. -/
theorem C1_packing_layout (m : Machine) (ops : List Nat) (k : Nat)
    (h0 : m.bus.inst_count = 0) (hops : ∀ x ∈ ops, x < 16)
    (hn : ops.length ≤ MAX_INSTRUCTIONS) (hk : 2 * k + 1 < ops.length) :
    (append_all m ops).bus.priv.sbuf k = ops[2 * k] ||| (ops[2 * k + 1] <<< 4) := by
  have hlen : ops.length < 2 ^ 32 := by
    unfold MAX_INSTRUCTIONS at hn; omega
  obtain ⟨-, -, hb⟩ := packing_invariant m h0 ops hops hlen
  rw [hb k hk, List.getD_eq_getElem ops 0 (show 2 * k < ops.length by omega),
    List.getD_eq_getElem ops 0 hk]

/-- Claim C1 at a fresh bus and the seven opcodes of start and stop: byte 2 of
the buffer holds opcodes 4 and 5. -/
theorem C1_packing_layout_witness :
    m_fresh.bus.inst_count = 0 ∧
    (∀ x ∈ [5, 3, 4, 2, 4, 3, 5], x < 16) ∧
    (append_all m_fresh [5, 3, 4, 2, 4, 3, 5]).bus.priv.sbuf 2 = 0x34 :=
  ⟨rfl, by decide,
    C1_packing_layout m_fresh [5, 3, 4, 2, 4, 3, 5] 2 rfl (by decide) (by decide) (by decide)⟩

/-- Claim C2. For every list `data` of bytes, `pt3_i2c_bus_write` appends
exactly the opcodes `write_opcodes data`, in order: per byte, bit 7 down to
bit 0 mapped to `I_DATA_H_NOP` (bit is 1) or `I_DATA_L_NOP` (bit is 0), then one
`I_DATA_H_ACK0`.  These are `9 * data.length` opcodes, and `inst_count`, a
`__u32`, grows by that number: in the arithmetic of `__u32`, and exactly
whenever the sum is below `2 ^ 32`. -/
theorem C2_write_appends (m : Machine) (data : List Nat) (hc : m.bus.inst_count < 2 ^ 32) :
    pt3_i2c_bus_write m data = append_all m (write_opcodes data) ∧
    (write_opcodes data).length = 9 * data.length ∧
    (pt3_i2c_bus_write m data).bus.inst_count = u32 (m.bus.inst_count + 9 * data.length) ∧
    (m.bus.inst_count + 9 * data.length < 2 ^ 32 →
      (pt3_i2c_bus_write m data).bus.inst_count = m.bus.inst_count + 9 * data.length) := by
  refine ⟨write_eq m data, write_opcodes_length data, write_count m data hc, ?_⟩
  intro h
  rw [write_count m data hc, u32_of_lt h]

/-- Claim C2 at a fresh bus and `data = [0xA5]`. -/
theorem C2_write_appends_witness :
    m_fresh.bus.inst_count < 2 ^ 32 ∧
    pt3_i2c_bus_write m_fresh [0xa5]
      = append_all m_fresh [0xc, 0x8, 0xc, 0x8, 0x8, 0xc, 0x8, 0xc, 0xe] ∧
    (pt3_i2c_bus_write m_fresh [0xa5]).bus.inst_count = 9 :=
  ⟨by decide, (C2_write_appends m_fresh [0xa5] (by decide)).1,
   (C2_write_appends m_fresh [0xa5] (by decide)).2.2.2 (by decide)⟩

/-- Claim C3 as stated fails: on a fresh bus, writing the byte `0xA5` does not
give the state reached by appending high, low, high, low, high, low, high, low,
ack (byte 2 of the buffer is `0xc8`, not `0x8c`). -/
theorem C3_write_a5_counterexample :
    pt3_i2c_bus_write m_fresh [0xa5]
      ≠ append_all m_fresh
          [I_DATA_H_NOP, I_DATA_L_NOP, I_DATA_H_NOP, I_DATA_L_NOP,
           I_DATA_H_NOP, I_DATA_L_NOP, I_DATA_H_NOP, I_DATA_L_NOP, I_DATA_H_ACK0] := by
  intro h
  have h2 := congrArg (fun m => m.bus.priv.sbuf 2) h
  revert h2
  decide

/-- Claim C3, amended. Applied to the single byte `0xA5` (binary 10100101),
`pt3_i2c_bus_write` appends exactly 9 opcodes: high, low, high, low, low, high,
low, high (`I_DATA_H_NOP` for a 1 bit, `I_DATA_L_NOP` for a 0 bit, bit 7
first), then one `I_DATA_H_ACK0`. -/
theorem C3_write_a5 (m : Machine) :
    pt3_i2c_bus_write m [0xa5]
      = append_all m
          [I_DATA_H_NOP, I_DATA_L_NOP, I_DATA_H_NOP, I_DATA_L_NOP,
           I_DATA_L_NOP, I_DATA_H_NOP, I_DATA_L_NOP, I_DATA_H_NOP, I_DATA_H_ACK0] := by
  rw [write_eq]
  rfl

/-- Claim C4. From any state `pt3_i2c_bus_start` appends data-high,
clock-high, data-low, clock-low and `pt3_i2c_bus_stop` appends data-low,
clock-high, data-high, in that order.  Start followed by stop on a fresh bus
gives `inst_count = 7` and the seven opcodes data-high, clock-high, data-low,
clock-low, data-low, clock-high, data-high; the first six are read back from
the buffer and the seventh is held in `tmp_inst`. -/
theorem C4_start_stop_sequence (m : Machine) (tmp : Nat) (regs : Regs) (beyond : Nat → Nat) :
    pt3_i2c_bus_start m = append_all m [I_DATA_H, I_CLOCK_H, I_DATA_L, I_CLOCK_L] ∧
    pt3_i2c_bus_stop m = append_all m [I_DATA_L, I_CLOCK_H, I_DATA_H] ∧
    (pt3_i2c_bus_stop (pt3_i2c_bus_start (fresh tmp regs beyond))).bus.inst_count = 7 ∧
    pt3_i2c_bus_stop (pt3_i2c_bus_start (fresh tmp regs beyond))
      = append_all (fresh tmp regs beyond)
          [I_DATA_H, I_CLOCK_H, I_DATA_L, I_CLOCK_L, I_DATA_L, I_CLOCK_H, I_DATA_H] ∧
    decode (pt3_i2c_bus_stop (pt3_i2c_bus_start (fresh tmp regs beyond))).bus.priv.sbuf 6
      = [I_DATA_H, I_CLOCK_H, I_DATA_L, I_CLOCK_L, I_DATA_L, I_CLOCK_H] ∧
    (pt3_i2c_bus_stop (pt3_i2c_bus_start (fresh tmp regs beyond))).tmp_inst = I_DATA_H :=
  ⟨rfl, rfl, rfl, rfl,
   decode_pairs (fresh tmp regs beyond) rfl
      [I_DATA_H, I_CLOCK_H, I_DATA_L, I_CLOCK_L, I_DATA_L, I_CLOCK_H, I_DATA_H]
      (by decide) (by decide),
   (packing_invariant (fresh tmp regs beyond) rfl
      [I_DATA_H, I_CLOCK_H, I_DATA_L, I_CLOCK_L, I_DATA_L, I_CLOCK_H, I_DATA_H]
      (by decide) (by decide)).2.1 (by decide)⟩

/-- Claim C5 as stated fails: on a fresh bus, after start, write of
`[0x00, 0xFF]` and stop, the `inst_count = 25` opcodes decoded from the packed
buffer are not the 25 opcodes appended (the last one decodes as 0, not as
`I_DATA_H`). -/
theorem C5_round_trip_counterexample :
    decode
        (pt3_i2c_bus_stop (pt3_i2c_bus_write (pt3_i2c_bus_start m_fresh) [0x00, 0xff])).bus.priv.sbuf
        (pt3_i2c_bus_stop (pt3_i2c_bus_write (pt3_i2c_bus_start m_fresh) [0x00, 0xff])).bus.inst_count
      ≠ [I_DATA_H, I_CLOCK_H, I_DATA_L, I_CLOCK_L] ++ write_opcodes [0x00, 0xff]
          ++ [I_DATA_L, I_CLOCK_H, I_DATA_H] := by
  decide

/-- Claim C5, amended. For every sequence of start / write / stop calls on a
fresh bus that appends `n ≤ MAX_INSTRUCTIONS` opcodes in total, `inst_count` is
`n`, decoding the packed buffer reproduces the appended opcodes at every index
below `2 * (n / 2)` (all complete pairs), and when `n` is odd the last opcode
appended is the value of `tmp_inst`. -/
theorem C5_round_trip_pairs (tmp : Nat) (regs : Regs) (beyond : Nat → Nat) (cs : List Call)
    (hn : (calls_opcodes cs).length ≤ MAX_INSTRUCTIONS) :
    (exec_calls (fresh tmp regs beyond) cs).bus.inst_count = (calls_opcodes cs).length ∧
    decode (exec_calls (fresh tmp regs beyond) cs).bus.priv.sbuf
        (2 * ((calls_opcodes cs).length / 2))
      = (calls_opcodes cs).take (2 * ((calls_opcodes cs).length / 2)) ∧
    ((calls_opcodes cs).length % 2 = 1 →
      (exec_calls (fresh tmp regs beyond) cs).tmp_inst
        = (calls_opcodes cs).getD ((calls_opcodes cs).length - 1) 0) := by
  have hlen : (calls_opcodes cs).length < 2 ^ 32 := by
    unfold MAX_INSTRUCTIONS at hn; omega
  have hops := calls_opcodes_lt cs
  obtain ⟨hc, ht, -⟩ := packing_invariant (fresh tmp regs beyond) rfl _ hops hlen
  rw [exec_calls_eq]
  exact ⟨hc, decode_pairs _ rfl _ hops hlen, ht⟩

/-- Claim C5, amended, at start, write of `[0x00, 0xFF]`, stop: 25 opcodes, of
which the first 24 are read back and the last is in `tmp_inst`. -/
theorem C5_round_trip_pairs_witness :
    (calls_opcodes [Call.start, Call.write [0x00, 0xff], Call.stop]).length ≤ MAX_INSTRUCTIONS ∧
    (exec_calls m_fresh [Call.start, Call.write [0x00, 0xff], Call.stop]).bus.inst_count = 25 ∧
    decode (exec_calls m_fresh [Call.start, Call.write [0x00, 0xff], Call.stop]).bus.priv.sbuf 24
      = [5, 3, 4, 2, 8, 8, 8, 8, 8, 8, 8, 8, 0xe, 0xc, 0xc, 0xc, 0xc, 0xc, 0xc, 0xc, 0xc, 0xe, 4, 3] ∧
    (exec_calls m_fresh [Call.start, Call.write [0x00, 0xff], Call.stop]).tmp_inst = 5 :=
  ⟨by decide,
   (C5_round_trip_pairs 0 regs_idle (fun _ => 0)
      [Call.start, Call.write [0x00, 0xff], Call.stop] (by decide)).1,
   (C5_round_trip_pairs 0 regs_idle (fun _ => 0)
      [Call.start, Call.write [0x00, 0xff], Call.stop] (by decide)).2.1,
   (C5_round_trip_pairs 0 regs_idle (fun _ => 0)
      [Call.start, Call.write [0x00, 0xff], Call.stop] (by decide)).2.2 (by decide)⟩

/-- Claim C6 as stated fails: with `inst_count = 7` (after start and stop on a
fresh bus) `pt3_i2c_bus_copy` does not make the first `(7 + 1) / 2 = 4` bytes of
the instruction store equal to the first 4 bytes of the packed buffer: byte 3
keeps its old value `0xff` while the buffer holds 0 there. -/
theorem C6_copy_ceil_counterexample :
    ¬ ((∀ i, i < (m_seven.bus.inst_count + 1) / 2 →
          (pt3_i2c_bus_copy m_seven).bus.base.inst (m_seven.bus.inst_addr / 2 + i)
            = m_seven.bus.priv.sbuf i) ∧
       (∀ a, ¬ (m_seven.bus.inst_addr / 2 ≤ a ∧
            a < m_seven.bus.inst_addr / 2 + (m_seven.bus.inst_count + 1) / 2) →
          (pt3_i2c_bus_copy m_seven).bus.base.inst a = m_seven.bus.base.inst a)) := by
  intro h
  have h3 := h.1 3 (by decide)
  revert h3
  decide

/-- Claim C6, amended. For every bus state `pt3_i2c_bus_copy` makes the
`inst_count / 2` (rounded down) bytes of the instruction store starting at
byte offset `inst_addr / 2` equal to the first `inst_count / 2` bytes of the
packed buffer, and leaves every other instruction-store byte unchanged. -/
theorem C6_copy_floor (m : Machine) :
    (∀ i, i < m.bus.inst_count / 2 →
      (pt3_i2c_bus_copy m).bus.base.inst (m.bus.inst_addr / 2 + i) = m.bus.priv.sbuf i) ∧
    (∀ a, ¬ (m.bus.inst_addr / 2 ≤ a ∧ a < m.bus.inst_addr / 2 + m.bus.inst_count / 2) →
      (pt3_i2c_bus_copy m).bus.base.inst a = m.bus.base.inst a) := by
  constructor
  · intro i hi
    simp only [pt3_i2c_bus_copy, memcpy]
    rw [if_pos (by omega)]
    congr 1; omega
  · intro a ha
    simp only [pt3_i2c_bus_copy, memcpy]
    rw [if_neg ha]

/-- Claim C6, amended, at `inst_count = 7`: byte 2 of the instruction store is
copied from the buffer, byte 3 is left as it was. -/
theorem C6_copy_floor_witness :
    m_seven.bus.inst_count = 7 ∧
    (pt3_i2c_bus_copy m_seven).bus.base.inst (m_seven.bus.inst_addr / 2 + 2)
      = m_seven.bus.priv.sbuf 2 ∧
    m_seven.bus.priv.sbuf 2 = 0x34 ∧
    (pt3_i2c_bus_copy m_seven).bus.base.inst 3 = m_seven.bus.base.inst 3 ∧
    m_seven.bus.base.inst 3 = 0xff ∧
    m_seven.bus.priv.sbuf 3 = 0 :=
  ⟨by decide, (C6_copy_floor m_seven).1 2 (by decide), by decide,
   (C6_copy_floor m_seven).2 3 (by decide), by decide, by decide⟩

/-- Claim C7. For every terminating call of `pt3_i2c_bus_run`, the trace of the
call ends with the last status read, of a word `s` with the busy bit clear,
followed by the unlock, and that read comes after the command write; the
return value is 0 when `(s >>> 1) &&& 3` is zero and -1 otherwise; a non-null
`ack` receives `(s >>> 1) &&& 3` and a null one stays null.  No other return
value occurs. -/
theorem C7_run_result (fuel : Nat) (m m' : Machine) (ack ack' : Option Nat) (copy ret : Int)
    (h : pt3_i2c_bus_run fuel m ack copy = some (m', ret, ack')) :
    ∃ evs s,
      m'.trace = m.trace ++ evs ++ [Event.readl s, Event.mutex_unlock] ∧
      Event.writel (u32 (1 <<< 16 ||| m.bus.inst_addr)) ∈ evs ∧
      BIT_SHIFT_MASK s 0 1 = 0 ∧
      ret = (if (s >>> 1) &&& 3 = 0 then 0 else -1) ∧
      ack' = ack.map (fun _ => (s >>> 1) &&& 3) ∧
      (ret = 0 ∨ ret = -1) := by
  obtain ⟨-, k1, k2, s, -, -, -, hs, hidle, hm, hret, hack⟩ := run_spec fuel m m' ack ack' copy ret h
  obtain ⟨pre2, hpre2, -⟩ :=
    poll_trace_split m.bus.base.status (m.bus.base.reads + (k1 + 1)) k2
  refine ⟨entry_trace m copy ++ poll_trace m.bus.base.status m.bus.base.reads k1
      ++ [Event.writel (u32 (1 <<< 16 ||| m.bus.inst_addr))] ++ pre2, s, ?_, ?_, hidle, ?_, ?_, ?_⟩
  · rw [hm, run_trace, hpre2, hs]
    simp only [List.append_assoc, List.singleton_append, List.cons_append, List.nil_append]
  · simp
  · rw [hret, bit_shift_mask_ack]
    by_cases hz : (s >>> 1) &&& 3 = 0 <;> simp [hz]
  · rw [hack, bit_shift_mask_ack]
  · rw [hret]
    split
    · right; rfl
    · left; rfl

/-- Claim C7 on a device that answers busy, idle, busy, then idle with
acknowledge field 2: the call returns -1 and stores 2 through `ack`. -/
theorem C7_run_result_witness :
    ∃ m', pt3_i2c_bus_run 2 m_nack (some 0) 1 = some (m', -1, some 2) ∧
      ∃ evs s,
        m'.trace = m_nack.trace ++ evs ++ [Event.readl s, Event.mutex_unlock] ∧
        Event.writel (u32 (1 <<< 16 ||| m_nack.bus.inst_addr)) ∈ evs ∧
        BIT_SHIFT_MASK s 0 1 = 0 ∧
        (-1 : Int) = (if (s >>> 1) &&& 3 = 0 then 0 else -1) ∧
        some 2 = (some 0).map (fun _ => (s >>> 1) &&& 3) ∧
        ((-1 : Int) = 0 ∨ (-1 : Int) = -1) :=
  ⟨_, rfl, C7_run_result 2 m_nack _ (some 0) (some 2) 1 (-1) rfl⟩

/-- Claim C8. Every terminating call of `pt3_i2c_bus_run` (on a bus whose
`inst_addr` is a `__u32`) performs exactly one write to the command register,
of the value `(1 <<< 16) ||| inst_addr`: its events are `pre`, a status read
with the busy bit clear, that write, `mid`, a last status read with the busy
bit clear, and the unlock, with no command write in `pre` or `mid`.  When
`inst_addr < 2 ^ 16` the word written has bit 16 set, bit 17 clear and low 16
bits equal to `inst_addr`. -/
theorem C8_run_command_write (fuel : Nat) (m m' : Machine) (ack ack' : Option Nat)
    (copy ret : Int) (haddr : m.bus.inst_addr < 2 ^ 32)
    (h : pt3_i2c_bus_run fuel m ack copy = some (m', ret, ack')) :
    ∃ pre mid s1 s2,
      m'.trace = m.trace ++ (pre ++ [Event.readl s1, Event.writel (1 <<< 16 ||| m.bus.inst_addr)]
        ++ mid ++ [Event.readl s2, Event.mutex_unlock]) ∧
      (∀ e ∈ pre, is_command_write e = false) ∧
      (∀ e ∈ mid, is_command_write e = false) ∧
      BIT_SHIFT_MASK s1 0 1 = 0 ∧
      BIT_SHIFT_MASK s2 0 1 = 0 ∧
      (m.bus.inst_addr < 2 ^ 16 →
        (1 <<< 16 ||| m.bus.inst_addr).testBit 16 = true ∧
        (1 <<< 16 ||| m.bus.inst_addr).testBit 17 = false ∧
        (1 <<< 16 ||| m.bus.inst_addr) % 2 ^ 16 = m.bus.inst_addr) := by
  obtain ⟨-, k1, k2, s, -, -, hidle1, hs, hidle2, hm, -, -⟩ :=
    run_spec fuel m m' ack ack' copy ret h
  obtain ⟨pre1, hpre1, hno1⟩ := poll_trace_split m.bus.base.status m.bus.base.reads k1
  obtain ⟨pre2, hpre2, hno2⟩ :=
    poll_trace_split m.bus.base.status (m.bus.base.reads + (k1 + 1)) k2
  refine ⟨entry_trace m copy ++ pre1, pre2, _, s, ?_, ?_, hno2, hidle1, hidle2,
    command_word_bits _⟩
  · rw [hm, run_trace, hpre1, hpre2, hs, command_word_u32 _ haddr]
    simp only [List.append_assoc, List.singleton_append, List.cons_append, List.nil_append]
  · intro e he
    rw [List.mem_append] at he
    rcases he with he | he
    · exact entry_trace_no_write m copy e he
    · exact hno1 e he

/-- Claim C8 on a device that answers busy, idle, busy, idle: the call
terminates and its trace has the stated shape. -/
theorem C8_run_command_write_witness :
    m_nack.bus.inst_addr < 2 ^ 32 ∧
    ∃ m', pt3_i2c_bus_run 2 m_nack none 0 = some (m', -1, none) ∧
      ∃ pre mid s1 s2,
        m'.trace = m_nack.trace ++
          (pre ++ [Event.readl s1, Event.writel (1 <<< 16 ||| m_nack.bus.inst_addr)]
            ++ mid ++ [Event.readl s2, Event.mutex_unlock]) ∧
        (∀ e ∈ pre, is_command_write e = false) ∧
        (∀ e ∈ mid, is_command_write e = false) ∧
        BIT_SHIFT_MASK s1 0 1 = 0 ∧
        BIT_SHIFT_MASK s2 0 1 = 0 ∧
        (m_nack.bus.inst_addr < 2 ^ 16 →
          (1 <<< 16 ||| m_nack.bus.inst_addr).testBit 16 = true ∧
          (1 <<< 16 ||| m_nack.bus.inst_addr).testBit 17 = false ∧
          (1 <<< 16 ||| m_nack.bus.inst_addr) % 2 ^ 16 = m_nack.bus.inst_addr) :=
  ⟨by decide, _, rfl, C8_run_command_write 2 m_nack _ none none 0 (-1) (by decide) rfl⟩

/-- Claim C9 as stated fails: on the bus reached by 1024 starts, whose
`inst_count` is 4096, one more `add_instruction` would exceed
`MAX_INSTRUCTIONS`, and it is carried out: `inst_count` changes. -/
theorem C9_capacity_counterexample :
    MAX_INSTRUCTIONS < m_full.bus.inst_count + 1 ∧
    (add_instruction m_full I_END).bus.inst_count ≠ m_full.bus.inst_count := by
  rw [add_instruction_count, m_full_count]
  decide

/-- Claim C9, amended. No append is rejected: on every bus (`inst_count` a
`__u32`), whether or not the result exceeds `MAX_INSTRUCTIONS`,
`add_instruction` increases `inst_count` by 1, `pt3_i2c_bus_start` by 4,
`pt3_i2c_bus_stop` by 3 and `pt3_i2c_bus_write` by 9 per byte, in `__u32`
arithmetic. -/
theorem C9_append_never_rejected (m : Machine) (instruction : Nat) (data : List Nat)
    (hc : m.bus.inst_count < 2 ^ 32) :
    (add_instruction m instruction).bus.inst_count = u32 (m.bus.inst_count + 1) ∧
    (pt3_i2c_bus_start m).bus.inst_count = u32 (m.bus.inst_count + 4) ∧
    (pt3_i2c_bus_stop m).bus.inst_count = u32 (m.bus.inst_count + 3) ∧
    (pt3_i2c_bus_write m data).bus.inst_count = u32 (m.bus.inst_count + 9 * data.length) :=
  ⟨rfl, start_count m hc, stop_count m hc, write_count m data hc⟩

/-- Claim C9, amended, on the bus with `inst_count = 4096`: the four appends
give 4097, 4100, 4099 and 4105. -/
theorem C9_append_never_rejected_witness :
    m_full.bus.inst_count < 2 ^ 32 ∧
    (add_instruction m_full I_END).bus.inst_count = 4097 ∧
    (pt3_i2c_bus_start m_full).bus.inst_count = 4100 ∧
    (pt3_i2c_bus_stop m_full).bus.inst_count = 4099 ∧
    (pt3_i2c_bus_write m_full [0xa5]).bus.inst_count = 4105 := by
  have hc : m_full.bus.inst_count < 2 ^ 32 := by rw [m_full_count]; decide
  have h := C9_append_never_rejected m_full I_END [0xa5] hc
  rw [m_full_count] at h
  exact ⟨hc, h⟩

/-- Claim C10 as stated fails: the bus reached by 1024 starts satisfies
`inst_count ≤ MAX_INSTRUCTIONS`, and one more `pt3_i2c_bus_start` leads to a
state that does not. -/
theorem C10_count_invariant_counterexample :
    m_full.bus.inst_count ≤ MAX_INSTRUCTIONS ∧
    ¬ (pt3_i2c_bus_start m_full).bus.inst_count ≤ MAX_INSTRUCTIONS := by
  rw [start_count m_full (by rw [m_full_count]; decide), m_full_count]
  decide

/-- Claim C10, amended. `inst_count ≤ MAX_INSTRUCTIONS` holds for a freshly
created bus and is preserved by `pt3_i2c_bus_copy`, `pt3_i2c_bus_reset`,
`pt3_i2c_bus_is_clean` and every terminating `pt3_i2c_bus_run`, which leave
`inst_count` unchanged.  From a state where it holds, `pt3_i2c_bus_start` and
`pt3_i2c_bus_stop` preserve it exactly when `inst_count + 4`, resp.
`inst_count + 3`, is at most `MAX_INSTRUCTIONS`; `pt3_i2c_bus_write` preserves
it when `inst_count + 9 * size` is at most `MAX_INSTRUCTIONS` and breaks it
when that sum is larger (and below `2 ^ 32`). -/
theorem C10_count_invariant (m : Machine) (data : List Nat) (tmp : Nat) (regs : Regs)
    (beyond : Nat → Nat) (hinv : m.bus.inst_count ≤ MAX_INSTRUCTIONS) :
    (fresh tmp regs beyond).bus.inst_count ≤ MAX_INSTRUCTIONS ∧
    (pt3_i2c_bus_copy m).bus.inst_count = m.bus.inst_count ∧
    (pt3_i2c_bus_reset m).bus.inst_count = m.bus.inst_count ∧
    (pt3_i2c_bus_is_clean m).1.bus.inst_count = m.bus.inst_count ∧
    (∀ fuel ack copy m' ret ack',
      pt3_i2c_bus_run fuel m ack copy = some (m', ret, ack') →
        m'.bus.inst_count = m.bus.inst_count) ∧
    ((pt3_i2c_bus_start m).bus.inst_count ≤ MAX_INSTRUCTIONS
      ↔ m.bus.inst_count + 4 ≤ MAX_INSTRUCTIONS) ∧
    ((pt3_i2c_bus_stop m).bus.inst_count ≤ MAX_INSTRUCTIONS
      ↔ m.bus.inst_count + 3 ≤ MAX_INSTRUCTIONS) ∧
    (m.bus.inst_count + 9 * data.length ≤ MAX_INSTRUCTIONS →
      (pt3_i2c_bus_write m data).bus.inst_count ≤ MAX_INSTRUCTIONS) ∧
    (MAX_INSTRUCTIONS < m.bus.inst_count + 9 * data.length →
      m.bus.inst_count + 9 * data.length < 2 ^ 32 →
      MAX_INSTRUCTIONS < (pt3_i2c_bus_write m data).bus.inst_count) := by
  unfold MAX_INSTRUCTIONS at *
  have hc : m.bus.inst_count < 2 ^ 32 := by omega
  refine ⟨Nat.zero_le _, rfl, rfl, rfl, ?_, ?_, ?_, ?_, ?_⟩
  · intro fuel ack copy m' ret ack' h
    exact run_count fuel m m' ack ack' copy ret h
  · rw [start_count m hc, u32_of_lt (by omega)]
  · rw [stop_count m hc, u32_of_lt (by omega)]
  · intro h
    rw [write_count m data hc, u32_of_lt (by omega)]
    exact h
  · intro h h2
    rw [write_count m data hc, u32_of_lt h2]
    exact h

/-- Claim C10, amended, on the bus with `inst_count = 7` after start and stop. -/
theorem C10_count_invariant_witness :
    m_seven.bus.inst_count ≤ MAX_INSTRUCTIONS ∧
    (pt3_i2c_bus_copy m_seven).bus.inst_count = m_seven.bus.inst_count ∧
    ((pt3_i2c_bus_start m_seven).bus.inst_count ≤ MAX_INSTRUCTIONS
      ↔ m_seven.bus.inst_count + 4 ≤ MAX_INSTRUCTIONS) ∧
    (m_seven.bus.inst_count + 9 * [0xa5].length ≤ MAX_INSTRUCTIONS →
      (pt3_i2c_bus_write m_seven [0xa5]).bus.inst_count ≤ MAX_INSTRUCTIONS) :=
  ⟨by decide,
   (C10_count_invariant m_seven [0xa5] 0 regs_idle (fun _ => 0) (by decide)).2.1,
   (C10_count_invariant m_seven [0xa5] 0 regs_idle (fun _ => 0) (by decide)).2.2.2.2.2.1,
   (C10_count_invariant m_seven [0xa5] 0 regs_idle (fun _ => 0) (by decide)).2.2.2.2.2.2.2.1⟩

/-- Claim C11, the code at its failing input: when the first call of `kzalloc`
(the bus structure) fails, `create_pt3_i2c_bus` does not return null: it jumps
to `fail` with `bus == NULL` and `free_pt3_i2c_bus` reads `bus->priv` through
that null pointer. -/
theorem C11_create_null_dereference :
    (heap_with [false, true, true]).oracle (heap_with [false, true, true]).calls = false ∧
    create_pt3_i2c_bus 64 8 regs_idle (heap_with [false, true, true])
      = Except.error Fault.null_dereference :=
  ⟨rfl, create_first_fails 64 8 regs_idle (heap_with [false, true, true]) rfl⟩

/-- Claim C12, the code at its failing input: when the bus and private-data
allocations succeed and the buffer allocation fails on a heap without blocks,
`create_pt3_i2c_bus` returns null having released only the bus block (address
1); the private-data block (address 2) is still live. -/
theorem C12_create_leaks_priv :
    ∃ h', create_pt3_i2c_bus 64 8 regs_idle (heap_with [true, true, false]) = Except.ok (0, h') ∧
      (heap_with [true, true, false]).live = [] ∧
      h'.live = [2] ∧
      h'.released = [1] :=
  ⟨_, rfl, rfl, rfl, rfl⟩

/-- Claim C13. For every state, `pt3_i2c_bus_reset` adds exactly one event to
the trace, a write of `1 <<< 17` to the command register, a word whose only
set bit is bit 17; it reads no status word, takes no lock, and leaves the bus
(with `inst_count` and the packed buffer) and `tmp_inst` unchanged. -/
theorem C13_reset (m : Machine) :
    (pt3_i2c_bus_reset m).trace = m.trace ++ [Event.writel (1 <<< 17)] ∧
    (∀ i, (1 <<< 17 : Nat).testBit i = decide (i = 17)) ∧
    (pt3_i2c_bus_reset m).bus = m.bus ∧
    (pt3_i2c_bus_reset m).tmp_inst = m.tmp_inst := by
  refine ⟨rfl, ?_, rfl, rfl⟩
  intro i
  rw [Nat.one_shiftLeft, Nat.testBit_two_pow]
  by_cases h : i = 17 <;> simp [h, eq_comm]

/-- Claim C14. For every state, with `s` the word the status register presents,
`pt3_i2c_bus_is_clean` adds exactly one event to the trace, the read of `s`;
it returns `(s >>> 3) &&& 1`, which is 1 when bit 3 of `s` is set and 0
otherwise; apart from the count of reads the bus is unchanged. -/
theorem C14_is_clean (m : Machine) :
    (pt3_i2c_bus_is_clean m).1.trace
      = m.trace ++ [Event.readl (u32 (m.bus.base.status m.bus.base.reads))] ∧
    (pt3_i2c_bus_is_clean m).2
      = (((u32 (m.bus.base.status m.bus.base.reads) >>> 3) &&& 1 : Nat) : Int) ∧
    (pt3_i2c_bus_is_clean m).2
      = (if (u32 (m.bus.base.status m.bus.base.reads)).testBit 3 then 1 else 0) ∧
    (pt3_i2c_bus_is_clean m).1.bus
      = { m.bus with base := { m.bus.base with reads := m.bus.base.reads + 1 } } ∧
    (pt3_i2c_bus_is_clean m).1.tmp_inst = m.tmp_inst := by
  refine ⟨rfl, rfl, ?_, rfl, rfl⟩
  show ((BIT_SHIFT_MASK (u32 (m.bus.base.status m.bus.base.reads)) 3 1 : Nat) : Int) = _
  rw [bit_shift_mask_one]
  split <;> rfl

/-- Claim C15. Every terminating call of `pt3_i2c_bus_run` was started with the
lock free and returns with the lock free; its events are one `mutex_lock`, then
events `mid` none of which is a lock operation, then one `mutex_unlock`, for
either value of `copy` and either return value.  The upload (when `copy` is
non-zero), the command write and the status reads are in `mid`. -/
theorem C15_run_lock (fuel : Nat) (m m' : Machine) (ack ack' : Option Nat) (copy ret : Int)
    (h : pt3_i2c_bus_run fuel m ack copy = some (m', ret, ack')) :
    m.bus.lock = false ∧
    m'.bus.lock = false ∧
    ∃ mid,
      m'.trace = m.trace ++ ([Event.mutex_lock] ++ mid ++ [Event.mutex_unlock]) ∧
      (∀ e ∈ mid, is_lock_event e = false) ∧
      (copy ≠ 0 →
        Event.memcpy_inst (m.bus.inst_addr / 2) (m.bus.inst_count / 2) ∈ mid) ∧
      Event.writel (u32 (1 <<< 16 ||| m.bus.inst_addr)) ∈ mid ∧
      (∃ s, Event.readl s ∈ mid) := by
  obtain ⟨hfree, k1, k2, s, -, -, -, hs, -, hm, -, -⟩ := run_spec fuel m m' ack ack' copy ret h
  obtain ⟨pre2, hpre2, -⟩ :=
    poll_trace_split m.bus.base.status (m.bus.base.reads + (k1 + 1)) k2
  refine ⟨hfree, by rw [hm]; rfl, ?_⟩
  refine ⟨(entry_trace m copy).tail ++ poll_trace m.bus.base.status m.bus.base.reads k1
      ++ [Event.writel (u32 (1 <<< 16 ||| m.bus.inst_addr))]
      ++ poll_trace m.bus.base.status (m.bus.base.reads + (k1 + 1)) k2, ?_, ?_, ?_, ?_, ?_⟩
  · rw [hm, run_trace]
    have he : entry_trace m copy = Event.mutex_lock :: (entry_trace m copy).tail := by
      unfold entry_trace; split <;> rfl
    conv_lhs => rw [he]
    simp only [List.append_assoc, List.singleton_append, List.cons_append, List.nil_append]
  · intro e he
    simp only [List.mem_append, List.mem_singleton] at he
    rcases he with ((he | he) | he) | he
    · unfold entry_trace at he
      split at he
      · simp only [List.tail_cons, List.mem_singleton] at he
        subst he; rfl
      · simp at he
    · exact poll_trace_no_lock _ _ _ e he
    · subst he; rfl
    · exact poll_trace_no_lock _ _ _ e he
  · intro hc
    simp only [List.mem_append]
    left; left; left
    unfold entry_trace
    rw [if_pos hc]
    simp
  · simp
  · refine ⟨u32 (m.bus.base.status (m.bus.base.reads + (k1 + 1) + k2)), ?_⟩
    rw [hpre2]
    simp

/-- Claim C15 on the negative-acknowledge path with `copy = 1`. -/
theorem C15_run_lock_witness :
    ∃ m', pt3_i2c_bus_run 2 m_nack (some 0) 1 = some (m', -1, some 2) ∧
      m_nack.bus.lock = false ∧
      m'.bus.lock = false ∧
      ∃ mid,
        m'.trace = m_nack.trace ++ ([Event.mutex_lock] ++ mid ++ [Event.mutex_unlock]) ∧
        (∀ e ∈ mid, is_lock_event e = false) ∧
        ((1 : Int) ≠ 0 →
          Event.memcpy_inst (m_nack.bus.inst_addr / 2) (m_nack.bus.inst_count / 2) ∈ mid) ∧
        Event.writel (u32 (1 <<< 16 ||| m_nack.bus.inst_addr)) ∈ mid ∧
        (∃ s, Event.readl s ∈ mid) :=
  ⟨_, rfl, C15_run_lock 2 m_nack _ (some 0) (some 2) 1 (-1) rfl⟩

/-- Claim C16, the code at its failing input: on a fresh bus, after 1022 starts
and one stop (4091 opcodes), one more `add_instruction` keeps the total within
`MAX_INSTRUCTIONS`, yet its 4-byte store reaches offset 2048, which is not
inside the buffer of `MAX_INSTRUCTIONS / 2` bytes: the byte following the
buffer changes from `0xff` to 0. -/
theorem C16_write_past_buffer :
    m_fresh_ff.bus.inst_count = 0 ∧
    m_4091.bus.inst_count + 1 ≤ MAX_INSTRUCTIONS ∧
    2048 ∈ add_instruction_writes m_4091 ∧
    ¬ 2048 < MAX_INSTRUCTIONS / 2 ∧
    m_4091.bus.priv.sbuf 2048 = 0xff ∧
    (add_instruction m_4091 I_DATA_L).bus.priv.sbuf 2048 = 0 := by
  refine ⟨rfl, ?_, ?_, by decide, m_4091_byte_2048, ?_⟩
  · rw [m_4091_count]; decide
  · rw [mem_add_instruction_writes, m_4091_count]; decide
  · rw [add_instruction_sbuf_odd m_4091 _ _ (by rw [m_4091_count]), m_4091_count,
      if_pos (by decide)]
    exact bytes_u32_high _ _ (packed_pair_lt _ _ m_4091_tmp_inst (by decide)) (by decide)

/-- Claim C17, the code at its failing input: on a bus whose buffer still holds
an older program (bytes `0x35, 0x24, 0x34`), the append at opcode index 1
changes byte 1 from `0x24` to 0, although `1 / 2 = 0`. -/
theorem C17_append_clears_next_bytes :
    (add_instruction m_reused I_DATA_L).bus.inst_count = 1 ∧
    (add_instruction m_reused I_DATA_L).bus.priv.sbuf 1 = 0x24 ∧
    (add_instruction (add_instruction m_reused I_DATA_L) I_CLOCK_H).bus.priv.sbuf 1 = 0 ∧
    (1 : Nat) ≠ 1 / 2 := by
  decide

/-- Claim C18, the code at its failing input: with stop on `A`, write of
`[0x00]` on `B`, start on `A`, byte 1 of the buffer of `A` is `0x5e`, while the
calls on `A` alone give `0x55`; with single opcodes (data-high on `A`, data-low
on `B`, clock-high on `A`) byte 0 of `A` is `0x34` instead of `0x35`. -/
theorem C18_buses_interfere :
    (exec_interleaved two_fresh
        [(true, Call.stop), (false, Call.write [0x00]), (true, Call.start)]).A.priv.sbuf 1 = 0x5e ∧
    (exec_calls { tmp_inst := two_fresh.tmp_inst, bus := two_fresh.A, trace := [] }
        (calls_on_A
          [(true, Call.stop), (false, Call.write [0x00]), (true, Call.start)])).bus.priv.sbuf 1
      = 0x55 ∧
    (on_A (fun m => add_instruction m I_CLOCK_H)
        (on_B (fun m => add_instruction m I_DATA_L)
          (on_A (fun m => add_instruction m I_DATA_H) two_fresh))).A.priv.sbuf 0 = 0x34 ∧
    (add_instruction
        (add_instruction { tmp_inst := two_fresh.tmp_inst, bus := two_fresh.A, trace := [] }
          I_DATA_H) I_CLOCK_H).bus.priv.sbuf 0 = 0x35 := by
  decide

/-- Claim C19. Every terminating call of `pt3_i2c_bus_run` leaves `inst_count`,
`inst_addr`, the packed buffer and `tmp_inst` unchanged; with `copy = 0` the
instruction store is unchanged, and with `copy` non-zero it is the one
`pt3_i2c_bus_copy` produces on the same state. -/
theorem C19_run_frame (fuel : Nat) (m m' : Machine) (ack ack' : Option Nat) (copy ret : Int)
    (h : pt3_i2c_bus_run fuel m ack copy = some (m', ret, ack')) :
    m'.bus.inst_count = m.bus.inst_count ∧
    m'.bus.inst_addr = m.bus.inst_addr ∧
    m'.bus.priv.sbuf = m.bus.priv.sbuf ∧
    m'.tmp_inst = m.tmp_inst ∧
    (copy = 0 → m'.bus.base.inst = m.bus.base.inst) ∧
    (copy ≠ 0 → m'.bus.base.inst = (pt3_i2c_bus_copy m).bus.base.inst) := by
  obtain ⟨-, k1, k2, s, -, -, -, -, -, hm, -, -⟩ := run_spec fuel m m' ack ack' copy ret h
  rw [hm]
  refine ⟨?_, ?_, ?_, ?_, ?_, ?_⟩
  · show (run_entry m copy).bus.inst_count = _
    unfold run_entry; split <;> rfl
  · show (run_entry m copy).bus.inst_addr = _
    unfold run_entry; split <;> rfl
  · show (run_entry m copy).bus.priv.sbuf = _
    unfold run_entry; split <;> rfl
  · show (run_entry m copy).tmp_inst = _
    unfold run_entry; split <;> rfl
  · intro hc
    show (run_entry m copy).bus.base.inst = _
    unfold run_entry
    rw [if_neg (by simpa using hc)]
  · intro hc
    show (run_entry m copy).bus.base.inst = _
    unfold run_entry
    rw [if_pos hc]
    rfl

/-- Claim C19 on a run with `copy = 1`. -/
theorem C19_run_frame_witness :
    ∃ m', pt3_i2c_bus_run 2 m_nack (some 0) 1 = some (m', -1, some 2) ∧
      m'.bus.inst_count = m_nack.bus.inst_count ∧
      m'.bus.inst_addr = m_nack.bus.inst_addr ∧
      m'.bus.priv.sbuf = m_nack.bus.priv.sbuf ∧
      m'.tmp_inst = m_nack.tmp_inst ∧
      ((1 : Int) = 0 → m'.bus.base.inst = m_nack.bus.base.inst) ∧
      ((1 : Int) ≠ 0 → m'.bus.base.inst = (pt3_i2c_bus_copy m_nack).bus.base.inst) :=
  ⟨_, rfl, C19_run_frame 2 m_nack _ (some 0) (some 2) 1 (-1) rfl⟩

/-- Claim C20. When the first status word with bit 0 clear is the one at
position `k1` from the current read position, `wait` (with more than `k1`
iterations allowed) yields that word after exactly `k1 + 1` status reads and
`k1` sleeps.  When moreover, after the command write, the first such word is at
position `k2`, `pt3_i2c_bus_run` on a free lock terminates, with the events
lock, upload if asked, first poll, command write, second poll, unlock; for
`k1 = k2 = 0` (a device that is not busy) these are two status reads and one
command write. -/
theorem C20_polling (fuel : Nat) (m : Machine) (ack : Option Nat) (copy : Int) (k1 k2 : Nat)
    (hlock : m.bus.lock = false)
    (hb1 : ∀ i, i < k1 →
      BIT_SHIFT_MASK (u32 (m.bus.base.status (m.bus.base.reads + i))) 0 1 ≠ 0)
    (hi1 : BIT_SHIFT_MASK (u32 (m.bus.base.status (m.bus.base.reads + k1))) 0 1 = 0)
    (hb2 : ∀ i, i < k2 →
      BIT_SHIFT_MASK (u32 (m.bus.base.status (m.bus.base.reads + (k1 + 1) + i))) 0 1 ≠ 0)
    (hi2 : BIT_SHIFT_MASK (u32 (m.bus.base.status (m.bus.base.reads + (k1 + 1) + k2))) 0 1 = 0)
    (hf1 : k1 < fuel) (hf2 : k2 < fuel) :
    (∃ mw, wait fuel m = some (mw, u32 (m.bus.base.status (m.bus.base.reads + k1))) ∧
      mw.trace = m.trace ++ poll_trace m.bus.base.status m.bus.base.reads k1 ∧
      mw.bus.base.reads = m.bus.base.reads + (k1 + 1)) ∧
    (poll_trace m.bus.base.status m.bus.base.reads k1).countP is_status_read = k1 + 1 ∧
    (poll_trace m.bus.base.status m.bus.base.reads k1).countP is_sleep = k1 ∧
    (poll_trace m.bus.base.status m.bus.base.reads k1).length = 2 * k1 + 1 ∧
    (∃ m' ret ack',
      pt3_i2c_bus_run fuel m ack copy = some (m', ret, ack') ∧
      m'.trace = m.trace ++ (entry_trace m copy
        ++ poll_trace m.bus.base.status m.bus.base.reads k1
        ++ [Event.writel (u32 (1 <<< 16 ||| m.bus.inst_addr))]
        ++ poll_trace m.bus.base.status (m.bus.base.reads + (k1 + 1)) k2
        ++ [Event.mutex_unlock]) ∧
      (k1 = 0 → k2 = 0 →
        m'.trace = m.trace ++ (entry_trace m copy
          ++ [Event.readl (u32 (m.bus.base.status m.bus.base.reads)),
              Event.writel (u32 (1 <<< 16 ||| m.bus.inst_addr)),
              Event.readl (u32 (m.bus.base.status (m.bus.base.reads + 1))),
              Event.mutex_unlock]))) := by
  obtain ⟨c1, c2, c3⟩ := poll_trace_counts m.bus.base.status m.bus.base.reads k1
  refine ⟨⟨after_poll m k1, wait_complete k1 fuel m hb1 hi1 hf1, rfl, rfl⟩, c1, c2, c3, ?_⟩
  refine ⟨_, _, _, run_complete fuel m ack copy k1 k2 hlock hb1 hi1 hb2 hi2 hf1 hf2,
    run_trace m copy k1 k2 _, ?_⟩
  intro h1 h2
  subst h1 h2
  rw [run_trace]
  simp only [poll_trace, List.append_assoc, List.singleton_append, List.cons_append,
    List.nil_append, Nat.zero_add, Nat.add_zero]

/-- Claim C20 on a device that is busy once before each idle word, and on a
device that is never busy. -/
theorem C20_polling_witness :
    ((∃ mw, wait 2 m_nack = some (mw, 0) ∧
        mw.trace = m_nack.trace ++ [Event.readl 1, Event.sleep, Event.readl 0] ∧
        mw.bus.base.reads = 2) ∧
      ∃ m' ret ack',
        pt3_i2c_bus_run 2 m_nack none 1 = some (m', ret, ack') ∧
        m'.trace = [Event.mutex_lock, Event.memcpy_inst 0 3, Event.readl 1, Event.sleep,
          Event.readl 0, Event.writel 65536, Event.readl 1, Event.sleep, Event.readl 4,
          Event.mutex_unlock]) ∧
    (∃ m' ret ack',
        pt3_i2c_bus_run 1 m_seven none 0 = some (m', ret, ack') ∧
        m'.trace = [Event.mutex_lock, Event.readl 0, Event.writel 65536, Event.readl 0,
          Event.mutex_unlock]) := by
  have hn := C20_polling 2 m_nack none 1 1 1 (by decide) (by decide) (by decide) (by decide)
    (by decide) (by decide) (by decide)
  have hs := C20_polling 1 m_seven none 0 0 0 (by decide) (by decide) (by decide) (by decide)
    (by decide) (by decide) (by decide)
  obtain ⟨hw, -, -, -, m1, r1, a1, hr1, ht1, -⟩ := hn
  obtain ⟨-, -, -, -, m2, r2, a2, hr2, -, ht2⟩ := hs
  exact ⟨⟨hw, m1, r1, a1, hr1, ht1⟩, m2, r2, a2, hr2, ht2 rfl rfl⟩

end PT3
